import Mathlib

/-!
# c2go: the `ast` package (`ast.go`)

A shallow embedding of `ast.go`: the rendering context `Ast` with its import
list (`NewAst`, `Imports`, `addImport`, `importType`), the grammar-table
dispatcher `Parse`, and the field extractor `groupsFromRegex`.

Go strings are modelled as lists of characters.  Every separator that `ast.go`
hands to the `strings` package (`" "`, `"."`, `"/"`, and `"\n"`, `"\t"` for
`Replace`) is a single ASCII byte, so cutting a well-formed UTF-8 string at that
byte and cutting its list of characters at that character cut at the same
places; the separator parameter of `Index`, `Count`, `genSplit`, `Split`,
`SplitN` and `Replace` is therefore a `Char`.

Go run-time panics are explicit: an out-of-range index or slice bound is `none`,
and the `panic(...)` of `Parse` and of `groupsFromRegex` is a constructor of the
result type.

Go's `regexp` package is a parameter of `groupsFromRegex`, and every theorem
about `groupsFromRegex` is proved for every package.  Examples are evaluated
on `fragmentRegexp`, an implementation of the package for a fragment of Go's
pattern syntax.
-/

namespace C2go

/-- A Go `string`. -/
abbrev GoString := List Char

/-- A Go string literal. -/
def str (s : String) : GoString := s.toList

/-! ## The parts of Go's `strings` package used by `ast.go` -/

/-- Offset of the first occurrence of `sep` in `s`, if there is one
(`strings.IndexByte`, with `none` for `-1`). -/
def indexByte (sep : Char) : GoString → Option Nat
  | [] => none
  | c :: cs => if c = sep then some 0 else (indexByte sep cs).map (· + 1)

/-- `strings.Index(s, sep)` for a one-byte `sep`: the offset of the first
occurrence, or `-1`. -/
def Index (s : GoString) (sep : Char) : Int :=
  match indexByte sep s with
  | some m => (m : Int)
  | none => -1

/-- `strings.Count(s, sep)` for a one-byte `sep`. -/
def Count (s : GoString) (sep : Char) : Nat :=
  s.count sep

/-- The loop of `strings.genSplit`: at most `n` cuts at the first occurrence of
`sep` (`a[i] = s[:m]; s = s[m+len(sep):]`), then the rest (`a[i] = s`). -/
def genSplitLoop (sep : Char) : Nat → GoString → List GoString
  | 0, s => [s]
  | n + 1, s =>
    match indexByte sep s with
    | none => [s]
    | some m => s.take m :: genSplitLoop sep n (s.drop (m + 1))

/-- `strings.genSplit(s, sep, 0, n)` for a one-byte `sep`. -/
def genSplit (s : GoString) (sep : Char) (n : Int) : List GoString :=
  if n = 0 then []
  else
    let n1 : Int := if n < 0 then (Count s sep : Int) + 1 else n
    let n2 : Int := if n1 > (s.length : Int) + 1 then (s.length : Int) + 1 else n1
    genSplitLoop sep (n2 - 1).toNat s

/-- `strings.Split(s, sep)`. -/
def Split (s : GoString) (sep : Char) : List GoString :=
  genSplit s sep (-1)

/-- `strings.SplitN(s, sep, n)`. -/
def SplitN (s : GoString) (sep : Char) (n : Int) : List GoString :=
  genSplit s sep n

/-- `strings.Join(elems, sep)`: the first element, then `sep` and the next
element for each further one. -/
def Join (elems : List GoString) (sep : GoString) : GoString :=
  match elems with
  | [] => []
  | e :: rest => rest.foldl (fun b s => b ++ sep ++ s) e

/-- Go index expression `xs[i]`: `none` is the out-of-range panic. -/
def goIndex {α : Type} (xs : List α) (i : Int) : Option α :=
  if 0 ≤ i then xs[i.toNat]? else none

/-- Go slice expression `xs[:hi]`: `none` is the out-of-range panic. -/
def goSliceTo {α : Type} (xs : List α) (hi : Int) : Option (List α) :=
  if 0 ≤ hi ∧ hi ≤ (xs.length : Int) then some (xs.take hi.toNat) else none

/-! ## The rendering context -/

/-- The struct `Ast`. -/
structure Ast where
  imports : List GoString
  functionName : GoString
  indent : Int
  returnType : GoString
deriving DecidableEq, Repr

/-- `NewAst()`: the import list holds `"fmt"`, the other fields are zero. -/
def NewAst : Ast :=
  { imports := [str "fmt"], functionName := [], indent := 0, returnType := [] }

/-- `(a *Ast) Imports()`. -/
def Ast.Imports (a : Ast) : List GoString :=
  a.imports

/-- The `range` loop of `addImport`: `true` when some element equals `name`
(the early `return`). -/
def alreadyImported (name : GoString) : List GoString → Bool
  | [] => false
  | i :: rest => if i = name then true else alreadyImported name rest

/-- `(a *Ast) addImport(name)`. -/
def Ast.addImport (a : Ast) (name : GoString) : Ast :=
  if alreadyImported name a.imports then a
  else { a with imports := a.imports ++ [name] }

/-- `(a *Ast) importType(name)`: the returned string and the context after the
call. -/
def Ast.importType (a : Ast) (name : GoString) : Option (GoString × Ast) :=
  if Index name '.' ≠ -1 then
    let parts := Split name '.'
    match goSliceTo parts ((parts.length : Int) - 1) with
    | none => none
    | some front =>
      let a1 := a.addImport (Join front (str "."))
      let parts2 := Split name '/'
      match goIndex parts2 ((parts2.length : Int) - 1) with
      | none => none
      | some last => some (last, a1)
  else some (name, a)

/-- A call made on the rendering context. -/
inductive Call where
  | addImport (name : GoString)
  | importType (name : GoString)
deriving DecidableEq, Repr

/-- The context after one call. -/
def Ast.call (a : Ast) : Call → Option Ast
  | .addImport name => some (a.addImport name)
  | .importType name => (a.importType name).map Prod.snd

/-- The context after a sequence of calls, made in order. -/
def Ast.calls (a : Ast) : List Call → Option Ast
  | [] => some a
  | c :: cs =>
    match a.call c with
    | none => none
    | some a1 => a1.calls cs

/-! ## The grammar table and `Parse` -/

/-- The kind-specific parse functions `parseAlwaysInlineAttr`, ...,
`parseWhileStmt` that `Parse` calls.  They are defined in other files of the
package; `R` is whatever running one of them on a line does (the node it
returns, or its own panic). -/
structure Rules (R : Type) where
  parseAlwaysInlineAttr : GoString → R
  parseArraySubscriptExpr : GoString → R
  parseAsmLabelAttr : GoString → R
  parseAvailabilityAttr : GoString → R
  parseBinaryOperator : GoString → R
  parseBreakStmt : GoString → R
  parseBuiltinType : GoString → R
  parseCallExpr : GoString → R
  parseCharacterLiteral : GoString → R
  parseCompoundStmt : GoString → R
  parseConditionalOperator : GoString → R
  parseConstAttr : GoString → R
  parseConstantArrayType : GoString → R
  parseCStyleCastExpr : GoString → R
  parseDeclRefExpr : GoString → R
  parseDeclStmt : GoString → R
  parseDeprecatedAttr : GoString → R
  parseElaboratedType : GoString → R
  parseEnum : GoString → R
  parseEnumConstantDecl : GoString → R
  parseEnumDecl : GoString → R
  parseEnumType : GoString → R
  parseFieldDecl : GoString → R
  parseFloatingLiteral : GoString → R
  parseFormatAttr : GoString → R
  parseFunctionDecl : GoString → R
  parseFunctionProtoType : GoString → R
  parseForStmt : GoString → R
  parseIfStmt : GoString → R
  parseImplicitCastExpr : GoString → R
  parseIntegerLiteral : GoString → R
  parseMallocAttr : GoString → R
  parseMemberExpr : GoString → R
  parseModeAttr : GoString → R
  parseNoThrowAttr : GoString → R
  parseNonNullAttr : GoString → R
  parseParenExpr : GoString → R
  parseParmVarDecl : GoString → R
  parsePointerType : GoString → R
  parsePredefinedExpr : GoString → R
  parseQualType : GoString → R
  parseRecord : GoString → R
  parseRecordDecl : GoString → R
  parseRecordType : GoString → R
  parseRestrictAttr : GoString → R
  parseReturnStmt : GoString → R
  parseStringLiteral : GoString → R
  parseTranslationUnitDecl : GoString → R
  parseTypedef : GoString → R
  parseTypedefDecl : GoString → R
  parseTypedefType : GoString → R
  parseUnaryOperator : GoString → R
  parseVarDecl : GoString → R
  parseWhileStmt : GoString → R

/-- What a call of `Parse` does. -/
inductive ParseResult (R : Type) where
  /-- The statement `return parseK(line)`. -/
  | dispatched (r : R)
  /-- The statement `return nil`. -/
  | nil
  /-- The statement `panic(msg)` of the `default` case. -/
  | panic (msg : GoString)
  /-- The index expression `[0]` is out of range. -/
  | outOfRange
deriving DecidableEq, Repr

/-- `Parse(line)`. -/
def Parse {R : Type} (rules : Rules R) (line : GoString) : ParseResult R :=
  match goIndex (SplitN line ' ' 2) 0 with
  | none => .outOfRange
  | some nodeName =>
    if nodeName = str "AlwaysInlineAttr" then .dispatched (rules.parseAlwaysInlineAttr line)
    else if nodeName = str "ArraySubscriptExpr" then .dispatched (rules.parseArraySubscriptExpr line)
    else if nodeName = str "AsmLabelAttr" then .dispatched (rules.parseAsmLabelAttr line)
    else if nodeName = str "AvailabilityAttr" then .dispatched (rules.parseAvailabilityAttr line)
    else if nodeName = str "BinaryOperator" then .dispatched (rules.parseBinaryOperator line)
    else if nodeName = str "BreakStmt" then .dispatched (rules.parseBreakStmt line)
    else if nodeName = str "BuiltinType" then .dispatched (rules.parseBuiltinType line)
    else if nodeName = str "CallExpr" then .dispatched (rules.parseCallExpr line)
    else if nodeName = str "CharacterLiteral" then .dispatched (rules.parseCharacterLiteral line)
    else if nodeName = str "CompoundStmt" then .dispatched (rules.parseCompoundStmt line)
    else if nodeName = str "ConditionalOperator" then .dispatched (rules.parseConditionalOperator line)
    else if nodeName = str "ConstAttr" then .dispatched (rules.parseConstAttr line)
    else if nodeName = str "ConstantArrayType" then .dispatched (rules.parseConstantArrayType line)
    else if nodeName = str "CStyleCastExpr" then .dispatched (rules.parseCStyleCastExpr line)
    else if nodeName = str "DeclRefExpr" then .dispatched (rules.parseDeclRefExpr line)
    else if nodeName = str "DeclStmt" then .dispatched (rules.parseDeclStmt line)
    else if nodeName = str "DeprecatedAttr" then .dispatched (rules.parseDeprecatedAttr line)
    else if nodeName = str "ElaboratedType" then .dispatched (rules.parseElaboratedType line)
    else if nodeName = str "Enum" then .dispatched (rules.parseEnum line)
    else if nodeName = str "EnumConstantDecl" then .dispatched (rules.parseEnumConstantDecl line)
    else if nodeName = str "EnumDecl" then .dispatched (rules.parseEnumDecl line)
    else if nodeName = str "EnumType" then .dispatched (rules.parseEnumType line)
    else if nodeName = str "FieldDecl" then .dispatched (rules.parseFieldDecl line)
    else if nodeName = str "FloatingLiteral" then .dispatched (rules.parseFloatingLiteral line)
    else if nodeName = str "FormatAttr" then .dispatched (rules.parseFormatAttr line)
    else if nodeName = str "FunctionDecl" then .dispatched (rules.parseFunctionDecl line)
    else if nodeName = str "FunctionProtoType" then .dispatched (rules.parseFunctionProtoType line)
    else if nodeName = str "ForStmt" then .dispatched (rules.parseForStmt line)
    else if nodeName = str "IfStmt" then .dispatched (rules.parseIfStmt line)
    else if nodeName = str "ImplicitCastExpr" then .dispatched (rules.parseImplicitCastExpr line)
    else if nodeName = str "IntegerLiteral" then .dispatched (rules.parseIntegerLiteral line)
    else if nodeName = str "MallocAttr" then .dispatched (rules.parseMallocAttr line)
    else if nodeName = str "MemberExpr" then .dispatched (rules.parseMemberExpr line)
    else if nodeName = str "ModeAttr" then .dispatched (rules.parseModeAttr line)
    else if nodeName = str "NoThrowAttr" then .dispatched (rules.parseNoThrowAttr line)
    else if nodeName = str "NonNullAttr" then .dispatched (rules.parseNonNullAttr line)
    else if nodeName = str "ParenExpr" then .dispatched (rules.parseParenExpr line)
    else if nodeName = str "ParmVarDecl" then .dispatched (rules.parseParmVarDecl line)
    else if nodeName = str "PointerType" then .dispatched (rules.parsePointerType line)
    else if nodeName = str "PredefinedExpr" then .dispatched (rules.parsePredefinedExpr line)
    else if nodeName = str "QualType" then .dispatched (rules.parseQualType line)
    else if nodeName = str "Record" then .dispatched (rules.parseRecord line)
    else if nodeName = str "RecordDecl" then .dispatched (rules.parseRecordDecl line)
    else if nodeName = str "RecordType" then .dispatched (rules.parseRecordType line)
    else if nodeName = str "RestrictAttr" then .dispatched (rules.parseRestrictAttr line)
    else if nodeName = str "ReturnStmt" then .dispatched (rules.parseReturnStmt line)
    else if nodeName = str "StringLiteral" then .dispatched (rules.parseStringLiteral line)
    else if nodeName = str "TranslationUnitDecl" then .dispatched (rules.parseTranslationUnitDecl line)
    else if nodeName = str "Typedef" then .dispatched (rules.parseTypedef line)
    else if nodeName = str "TypedefDecl" then .dispatched (rules.parseTypedefDecl line)
    else if nodeName = str "TypedefType" then .dispatched (rules.parseTypedefType line)
    else if nodeName = str "UnaryOperator" then .dispatched (rules.parseUnaryOperator line)
    else if nodeName = str "VarDecl" then .dispatched (rules.parseVarDecl line)
    else if nodeName = str "WhileStmt" then .dispatched (rules.parseWhileStmt line)
    else if nodeName = str "NullStmt" then .nil
    else .panic (str "Unknown node type: '" ++ line ++ str "'")

/-! ## The specification's vocabulary -/

/-- The leading keyword of a record: the text before its first space (the whole
record when it has no space). -/
def leadingKeyword (line : GoString) : GoString :=
  line.takeWhile (fun c => c != ' ')

/-- The Grammar Table: each registered kind keyword with its field-extraction
rule. -/
def grammarTable {R : Type} (rules : Rules R) : List (GoString × (GoString → R)) :=
  [
    (str "AlwaysInlineAttr", rules.parseAlwaysInlineAttr),
    (str "ArraySubscriptExpr", rules.parseArraySubscriptExpr),
    (str "AsmLabelAttr", rules.parseAsmLabelAttr),
    (str "AvailabilityAttr", rules.parseAvailabilityAttr),
    (str "BinaryOperator", rules.parseBinaryOperator),
    (str "BreakStmt", rules.parseBreakStmt),
    (str "BuiltinType", rules.parseBuiltinType),
    (str "CallExpr", rules.parseCallExpr),
    (str "CharacterLiteral", rules.parseCharacterLiteral),
    (str "CompoundStmt", rules.parseCompoundStmt),
    (str "ConditionalOperator", rules.parseConditionalOperator),
    (str "ConstAttr", rules.parseConstAttr),
    (str "ConstantArrayType", rules.parseConstantArrayType),
    (str "CStyleCastExpr", rules.parseCStyleCastExpr),
    (str "DeclRefExpr", rules.parseDeclRefExpr),
    (str "DeclStmt", rules.parseDeclStmt),
    (str "DeprecatedAttr", rules.parseDeprecatedAttr),
    (str "ElaboratedType", rules.parseElaboratedType),
    (str "Enum", rules.parseEnum),
    (str "EnumConstantDecl", rules.parseEnumConstantDecl),
    (str "EnumDecl", rules.parseEnumDecl),
    (str "EnumType", rules.parseEnumType),
    (str "FieldDecl", rules.parseFieldDecl),
    (str "FloatingLiteral", rules.parseFloatingLiteral),
    (str "FormatAttr", rules.parseFormatAttr),
    (str "FunctionDecl", rules.parseFunctionDecl),
    (str "FunctionProtoType", rules.parseFunctionProtoType),
    (str "ForStmt", rules.parseForStmt),
    (str "IfStmt", rules.parseIfStmt),
    (str "ImplicitCastExpr", rules.parseImplicitCastExpr),
    (str "IntegerLiteral", rules.parseIntegerLiteral),
    (str "MallocAttr", rules.parseMallocAttr),
    (str "MemberExpr", rules.parseMemberExpr),
    (str "ModeAttr", rules.parseModeAttr),
    (str "NoThrowAttr", rules.parseNoThrowAttr),
    (str "NonNullAttr", rules.parseNonNullAttr),
    (str "ParenExpr", rules.parseParenExpr),
    (str "ParmVarDecl", rules.parseParmVarDecl),
    (str "PointerType", rules.parsePointerType),
    (str "PredefinedExpr", rules.parsePredefinedExpr),
    (str "QualType", rules.parseQualType),
    (str "Record", rules.parseRecord),
    (str "RecordDecl", rules.parseRecordDecl),
    (str "RecordType", rules.parseRecordType),
    (str "RestrictAttr", rules.parseRestrictAttr),
    (str "ReturnStmt", rules.parseReturnStmt),
    (str "StringLiteral", rules.parseStringLiteral),
    (str "TranslationUnitDecl", rules.parseTranslationUnitDecl),
    (str "Typedef", rules.parseTypedef),
    (str "TypedefDecl", rules.parseTypedefDecl),
    (str "TypedefType", rules.parseTypedefType),
    (str "UnaryOperator", rules.parseUnaryOperator),
    (str "VarDecl", rules.parseVarDecl),
    (str "WhileStmt", rules.parseWhileStmt)
  ]

/-- The registered kind keywords. -/
def registeredKinds : List GoString :=
  [
    str "AlwaysInlineAttr", str "ArraySubscriptExpr", str "AsmLabelAttr", str "AvailabilityAttr",
    str "BinaryOperator", str "BreakStmt", str "BuiltinType", str "CallExpr",
    str "CharacterLiteral", str "CompoundStmt", str "ConditionalOperator", str "ConstAttr",
    str "ConstantArrayType", str "CStyleCastExpr", str "DeclRefExpr", str "DeclStmt",
    str "DeprecatedAttr", str "ElaboratedType", str "Enum", str "EnumConstantDecl",
    str "EnumDecl", str "EnumType", str "FieldDecl", str "FloatingLiteral",
    str "FormatAttr", str "FunctionDecl", str "FunctionProtoType", str "ForStmt",
    str "IfStmt", str "ImplicitCastExpr", str "IntegerLiteral", str "MallocAttr",
    str "MemberExpr", str "ModeAttr", str "NoThrowAttr", str "NonNullAttr",
    str "ParenExpr", str "ParmVarDecl", str "PointerType", str "PredefinedExpr",
    str "QualType", str "Record", str "RecordDecl", str "RecordType",
    str "RestrictAttr", str "ReturnStmt", str "StringLiteral", str "TranslationUnitDecl",
    str "Typedef", str "TypedefDecl", str "TypedefType", str "UnaryOperator",
    str "VarDecl", str "WhileStmt"
  ]

/-- The keywords `Parse` recognises: the registered kinds and `NullStmt`. -/
def recognisedKinds : List GoString :=
  registeredKinds ++ [str "NullStmt"]

/-- Table lookup by exact equality of the whole keyword: the rule of the first
entry whose keyword is `k`. -/
def lookupRule {R : Type} : List (GoString × (GoString → R)) → GoString → Option (GoString → R)
  | [], _ => none
  | (k1, f) :: rest, k => if k = k1 then some f else lookupRule rest k

/-- The text of the panic of `Parse` that quotes `quoted`. -/
def unknownNodeType (quoted : GoString) : GoString :=
  str "Unknown node type: '" ++ quoted ++ str "'"

/-- The characters of an address token, the class `[0-9a-fx]` of
`groupsFromRegex`. -/
def isAddressChar (c : Char) : Bool :=
  ('0' ≤ c && c ≤ '9') || ('a' ≤ c && c ≤ 'f') || c = 'x'

/-- A rule set for examples: each rule returns its own name applied to the
line. -/
def tagRules : Rules GoString where
    parseAlwaysInlineAttr := fun line => str "parseAlwaysInlineAttr(" ++ line ++ str ")"
    parseArraySubscriptExpr := fun line => str "parseArraySubscriptExpr(" ++ line ++ str ")"
    parseAsmLabelAttr := fun line => str "parseAsmLabelAttr(" ++ line ++ str ")"
    parseAvailabilityAttr := fun line => str "parseAvailabilityAttr(" ++ line ++ str ")"
    parseBinaryOperator := fun line => str "parseBinaryOperator(" ++ line ++ str ")"
    parseBreakStmt := fun line => str "parseBreakStmt(" ++ line ++ str ")"
    parseBuiltinType := fun line => str "parseBuiltinType(" ++ line ++ str ")"
    parseCallExpr := fun line => str "parseCallExpr(" ++ line ++ str ")"
    parseCharacterLiteral := fun line => str "parseCharacterLiteral(" ++ line ++ str ")"
    parseCompoundStmt := fun line => str "parseCompoundStmt(" ++ line ++ str ")"
    parseConditionalOperator := fun line => str "parseConditionalOperator(" ++ line ++ str ")"
    parseConstAttr := fun line => str "parseConstAttr(" ++ line ++ str ")"
    parseConstantArrayType := fun line => str "parseConstantArrayType(" ++ line ++ str ")"
    parseCStyleCastExpr := fun line => str "parseCStyleCastExpr(" ++ line ++ str ")"
    parseDeclRefExpr := fun line => str "parseDeclRefExpr(" ++ line ++ str ")"
    parseDeclStmt := fun line => str "parseDeclStmt(" ++ line ++ str ")"
    parseDeprecatedAttr := fun line => str "parseDeprecatedAttr(" ++ line ++ str ")"
    parseElaboratedType := fun line => str "parseElaboratedType(" ++ line ++ str ")"
    parseEnum := fun line => str "parseEnum(" ++ line ++ str ")"
    parseEnumConstantDecl := fun line => str "parseEnumConstantDecl(" ++ line ++ str ")"
    parseEnumDecl := fun line => str "parseEnumDecl(" ++ line ++ str ")"
    parseEnumType := fun line => str "parseEnumType(" ++ line ++ str ")"
    parseFieldDecl := fun line => str "parseFieldDecl(" ++ line ++ str ")"
    parseFloatingLiteral := fun line => str "parseFloatingLiteral(" ++ line ++ str ")"
    parseFormatAttr := fun line => str "parseFormatAttr(" ++ line ++ str ")"
    parseFunctionDecl := fun line => str "parseFunctionDecl(" ++ line ++ str ")"
    parseFunctionProtoType := fun line => str "parseFunctionProtoType(" ++ line ++ str ")"
    parseForStmt := fun line => str "parseForStmt(" ++ line ++ str ")"
    parseIfStmt := fun line => str "parseIfStmt(" ++ line ++ str ")"
    parseImplicitCastExpr := fun line => str "parseImplicitCastExpr(" ++ line ++ str ")"
    parseIntegerLiteral := fun line => str "parseIntegerLiteral(" ++ line ++ str ")"
    parseMallocAttr := fun line => str "parseMallocAttr(" ++ line ++ str ")"
    parseMemberExpr := fun line => str "parseMemberExpr(" ++ line ++ str ")"
    parseModeAttr := fun line => str "parseModeAttr(" ++ line ++ str ")"
    parseNoThrowAttr := fun line => str "parseNoThrowAttr(" ++ line ++ str ")"
    parseNonNullAttr := fun line => str "parseNonNullAttr(" ++ line ++ str ")"
    parseParenExpr := fun line => str "parseParenExpr(" ++ line ++ str ")"
    parseParmVarDecl := fun line => str "parseParmVarDecl(" ++ line ++ str ")"
    parsePointerType := fun line => str "parsePointerType(" ++ line ++ str ")"
    parsePredefinedExpr := fun line => str "parsePredefinedExpr(" ++ line ++ str ")"
    parseQualType := fun line => str "parseQualType(" ++ line ++ str ")"
    parseRecord := fun line => str "parseRecord(" ++ line ++ str ")"
    parseRecordDecl := fun line => str "parseRecordDecl(" ++ line ++ str ")"
    parseRecordType := fun line => str "parseRecordType(" ++ line ++ str ")"
    parseRestrictAttr := fun line => str "parseRestrictAttr(" ++ line ++ str ")"
    parseReturnStmt := fun line => str "parseReturnStmt(" ++ line ++ str ")"
    parseStringLiteral := fun line => str "parseStringLiteral(" ++ line ++ str ")"
    parseTranslationUnitDecl := fun line => str "parseTranslationUnitDecl(" ++ line ++ str ")"
    parseTypedef := fun line => str "parseTypedef(" ++ line ++ str ")"
    parseTypedefDecl := fun line => str "parseTypedefDecl(" ++ line ++ str ")"
    parseTypedefType := fun line => str "parseTypedefType(" ++ line ++ str ")"
    parseUnaryOperator := fun line => str "parseUnaryOperator(" ++ line ++ str ")"
    parseVarDecl := fun line => str "parseVarDecl(" ++ line ++ str ")"
    parseWhileStmt := fun line => str "parseWhileStmt(" ++ line ++ str ")"

/-- What the specification's parser does with the outcome of the table lookup
for keyword `k`: run the rule found on the whole record; with no rule, the no-op
result for `NullStmt`, the unrecognised-kind failure otherwise. -/
def lookupOutcome {R : Type} (line k : GoString) :
    Option (GoString → R) → ParseResult R
  | some f => .dispatched (f line)
  | none => if k = str "NullStmt" then .nil else .panic (unknownNodeType line)

/-- The parser as the specification describes it: a lookup of the leading
keyword in the Grammar Table, then dispatch. -/
def parseByTable {R : Type} (rules : Rules R) (line : GoString) : ParseResult R :=
  lookupOutcome line (leadingKeyword line)
    (lookupRule (grammarTable rules) (leadingKeyword line))

/-- The namespace segment of a qualified name: `p` is the text of `name` before
its last `.`, that is `name = p ++ "." ++ t` with no `.` in `t`. -/
def IsNamespaceSegment (p name : GoString) : Prop :=
  ∃ t, name = p ++ '.' :: t ∧ '.' ∉ t

/-- The text of `s` after its last `sep`, and the whole of `s` when `sep` does
not occur in it. -/
def afterLast (sep : Char) (s : GoString) : GoString :=
  (s.reverse.takeWhile (fun c => c != sep)).reverse

/-! ## `groupsFromRegex` -/

/-- The loop of `strings.Replace` for a one-byte `old`: `n` times, copy the
text up to the next `old`, then `new`; at the end copy the rest. -/
def replaceLoop (old : Char) (new : GoString) : Nat → GoString → GoString
  | 0, s => s
  | n + 1, s =>
    match indexByte old s with
    | none => s
    | some j => s.take j ++ new ++ replaceLoop old new n (s.drop (j + 1))

/-- `strings.Replace(s, old, new, n)` for a one-byte `old`. -/
def Replace (s : GoString) (old : Char) (new : GoString) (n : Int) : GoString :=
  if [old] = new ∨ n = 0 then s
  else
    let m := Count s old
    if m = 0 then s
    else replaceLoop old new (if n < 0 ∨ (m : Int) < n then m else n.toNat) s

/-- What `regexp.Compile` returns: the compiled expression or an error. -/
inductive CompileResult (α : Type) where
  | ok (re : α)
  | error (err : GoString)
deriving DecidableEq, Repr

/-- The part of Go's `regexp` package that `groupsFromRegex` calls.  The
package is not part of `ast.go`; `groupsFromRegex` takes it as a parameter. -/
structure RegexpPackage where
  /-- The type `*regexp.Regexp`. -/
  Regexp : Type
  /-- `regexp.Compile(str)`. -/
  Compile : GoString → CompileResult Regexp
  /-- `re.FindStringSubmatch(s)`: the text of the leftmost match and of its
  subexpressions, `nil` (the empty list) when there is no match. -/
  FindStringSubmatch : Regexp → GoString → List GoString
  /-- `re.SubexpNames()`: the names of the subexpressions, element 0 being the
  empty name of the whole expression. -/
  SubexpNames : Regexp → List GoString

/-- A Go `map[string]string`: the keys are pairwise distinct. -/
abbrev GoMap := List (GoString × GoString)

/-- The map assignment `m[k] = v`. -/
def mapSet : GoMap → GoString → GoString → GoMap
  | [], k, v => [(k, v)]
  | (k1, v1) :: rest, k, v =>
    if k1 = k then (k, v) :: rest else (k1, v1) :: mapSet rest k v

/-- The map lookup `m[k]`, `none` when the key is absent. -/
def mapGet : GoMap → GoString → Option GoString
  | [], _ => none
  | (k1, v1) :: rest, k => if k1 = k then some v1 else mapGet rest k

/-- What a call of `groupsFromRegex` does. -/
inductive GroupsResult where
  /-- The statement `return result`. -/
  | ok (result : GoMap)
  /-- The statement `panic(msg)` of `groupsFromRegex`. -/
  | panic (msg : GoString)
  /-- The panic of `regexp.MustCompile`, raised for the error `err` of
  `regexp.Compile`. -/
  | mustCompilePanic (err : GoString)
  /-- The index expression `match[i]` is out of range. -/
  | outOfRange
deriving DecidableEq, Repr

/-- The pattern `groupsFromRegex` compiles: the address prefix, then `rx`
without its newlines and tabs. -/
def fullRegexp (rx : GoString) : GoString :=
  str "(?P<address>[0-9a-fx]+) " ++ Replace (Replace rx '\n' [] (-1)) '\t' [] (-1)

/-- The loop `for i, name := range re.SubexpNames()` of `groupsFromRegex`, from
index `i` on; `found` is the slice `match`. -/
def groupsLoop (found : List GoString) : Nat → List GoString → GoMap → Option GoMap
  | _, [], result => some result
  | i, name :: names, result =>
    if i ≠ 0 then
      match goIndex found (i : Int) with
      | none => none
      | some v => groupsLoop found (i + 1) names (mapSet result name v)
    else groupsLoop found (i + 1) names result

/-- `groupsFromRegex(rx, line)`. -/
def groupsFromRegex (regexp : RegexpPackage) (rx line : GoString) : GroupsResult :=
  match regexp.Compile (fullRegexp rx) with
  | .error err => .mustCompilePanic err
  | .ok re =>
    let found := regexp.FindStringSubmatch re line
    if found.length = 0 then
      .panic (str "could not match regexp '" ++ fullRegexp rx ++
        str "' with string '" ++ line ++ str "'")
    else
      match groupsLoop found 0 (regexp.SubexpNames re) [] with
      | none => .outOfRange
      | some result => .ok result

/-- A pattern with every newline and tab removed, the other characters in place
and in order. -/
def withoutLayout (rx : GoString) : GoString :=
  rx.filter (fun c => c != '\n' && c != '\t')

/-! ## A regexp package for a fragment of Go's syntax

`fragmentRegexp` implements `RegexpPackage` for the patterns built from
literals, escaped punctuation, `.`, character classes of characters and ranges,
`^`, `$`, groups `(...)`, `(?:...)` and `(?P<name>...)`, alternation and the
repetitions `*`, `+`, `?` and their lazy forms, `*` and `+` only of expressions
that cannot match the empty text.  On these it follows Go's
`regexp`: the parser keeps a stack of open groups as `regexp/syntax` does and
reports its errors, and matching is leftmost-first, the match a backtracking
search finds first.  A pattern that uses anything else is rejected with the
error `outsideFragment`, which is not an error of Go: the package says nothing
about such patterns.

The package only serves to evaluate `groupsFromRegex` on concrete patterns of
the fragment, in examples and counterexamples.  No general statement is made
about it: what is proved of `groupsFromRegex` is proved for every
`RegexpPackage`. -/

/-- A parsed regular expression. -/
inductive Re where
  | empty
  | lit (c : Char)
  | any
  | cls (negated : Bool) (ranges : List (Char × Char))
  | beginText
  | endText
  | cat (a b : Re)
  | alt (a b : Re)
  | star (greedy : Bool) (a : Re)
  | plus (greedy : Bool) (a : Re)
  | quest (greedy : Bool) (a : Re)
  | cap (idx : Nat) (a : Re)
deriving DecidableEq, Repr

/-- A compiled pattern: the expression and the names of its subexpressions,
element 0 being the empty name of the whole expression. -/
structure Compiled where
  re : Re
  names : List GoString
deriving DecidableEq, Repr

/-- The error for a pattern outside the fragment. -/
def outsideFragment : GoString :=
  str "pattern outside the modelled fragment"

/-- An open group of the parser (or the top level): the capture index of its
parenthesis, the alternatives finished so far and the pieces of the current
concatenation, both most recent first, and whether the last piece may take a
repetition operator. -/
structure Frame where
  capture : Option Nat
  alts : List Re
  items : List Re
  repeatable : Bool
deriving DecidableEq, Repr

/-- The parser state: the innermost open group, the groups around it, and the
names of the capture groups opened so far, in order. -/
structure ParseState where
  cur : Frame
  outer : List Frame
  names : List GoString
deriving DecidableEq, Repr

/-- A frame with nothing in it. -/
def Frame.new (capture : Option Nat) : Frame :=
  { capture := capture, alts := [], items := [], repeatable := false }

/-- Add a piece to the current concatenation. -/
def Frame.push (f : Frame) (r : Re) : Frame :=
  { f with items := r :: f.items, repeatable := true }

/-- The concatenation of the pieces, in order. -/
def mkCat : List Re → Re
  | [] => .empty
  | r :: rs => .cat r (mkCat rs)

/-- The expression of a finished group: the alternation of its alternatives,
wrapped in its capture. -/
def Frame.close (f : Frame) : Re :=
  let body := f.alts.foldl (fun acc a => Re.alt a acc) (mkCat f.items.reverse)
  match f.capture with
  | some idx => .cap idx body
  | none => body

/-- Whether an expression can match the empty text. -/
def Re.nullable : Re → Bool
  | .empty => true
  | .lit _ => false
  | .any => false
  | .cls _ _ => false
  | .beginText => true
  | .endText => true
  | .cat a b => a.nullable && b.nullable
  | .alt a b => a.nullable || b.nullable
  | .star _ _ => true
  | .plus _ a => a.nullable
  | .quest _ _ => true
  | .cap _ a => a.nullable

/-- Apply a repetition operator to the last piece; `loop` tells `*` and `+`
from `?`.  A loop over an expression that can match the empty text is outside
the fragment: what Go does with an iteration that consumes nothing depends on
the compiled program, which is not modelled. -/
def Frame.repeatLast (f : Frame) (loop : Bool) (mk : Re → Re) : CompileResult Frame :=
  match f.items with
  | [] => .error (str "missing argument to repetition operator")
  | r :: rs =>
    if f.repeatable then
      if loop && r.nullable then .error outsideFragment
      else .ok { f with items := mk r :: rs, repeatable := false }
    else .error (str "invalid nested repetition operator")

/-- Letters and digits. -/
def isAlnum (c : Char) : Bool :=
  ('0' ≤ c && c ≤ '9') || ('a' ≤ c && c ≤ 'z') || ('A' ≤ c && c ≤ 'Z')

/-- The items of a character class up to the closing bracket, and the text
after it. -/
def parseClass : Nat → List Char → List (Char × Char) →
    CompileResult (List (Char × Char) × List Char)
  | 0, _, _ => .error outsideFragment
  | _ + 1, [], _ => .error (str "missing closing ]")
  | n + 1, c :: rest, acc =>
    if c = ']' then
      if acc = [] then .error outsideFragment else .ok (acc.reverse, rest)
    else if c = '\\' ∨ c = '[' ∨ c = '-' ∨ c = '^' then .error outsideFragment
    else
      match rest with
      | '-' :: hi :: rest2 =>
        if hi = ']' ∨ hi = '\\' ∨ hi = '[' ∨ hi = '-' then .error outsideFragment
        else if c ≤ hi then parseClass n rest2 ((c, hi) :: acc)
        else .error (str "invalid character class range")
      | _ => parseClass n rest ((c, c) :: acc)

/-- Open a group. -/
def ParseState.openGroup (st : ParseState) (name : Option GoString) : ParseState :=
  match name with
  | some nm =>
    { cur := Frame.new (some (st.names.length + 1)), outer := st.cur :: st.outer,
      names := st.names ++ [nm] }
  | none => { cur := Frame.new none, outer := st.cur :: st.outer, names := st.names }

/-- One step of the parser: consume the next token of the pattern. -/
def parseStep (st : ParseState) (c : Char) (rest : List Char) :
    CompileResult (ParseState × List Char) :=
  if c = '(' then
    match rest with
    | '?' :: 'P' :: '<' :: rest2 =>
      let name := rest2.takeWhile (fun x => x != '>')
      if '>' ∉ rest2 ∨ name = [] ∨ ¬ name.all (fun x => isAlnum x || x = '_') then
        .error (str "invalid named capture")
      else .ok (st.openGroup (some name), rest2.drop (name.length + 1))
    | '?' :: ':' :: rest2 => .ok (st.openGroup none, rest2)
    | '?' :: _ => .error outsideFragment
    | _ => .ok (st.openGroup (some []), rest)
  else if c = ')' then
    match st.outer with
    | [] => .error (str "unexpected )")
    | parent :: outer =>
      .ok ({ st with cur := parent.push st.cur.close, outer := outer }, rest)
  else if c = '|' then
    .ok ({ st with cur := { st.cur with
      alts := mkCat st.cur.items.reverse :: st.cur.alts, items := [],
      repeatable := false } }, rest)
  else if c = '*' ∨ c = '+' ∨ c = '?' then
    let greedy : Bool := rest.head? != some '?'
    let rest2 := if greedy then rest else rest.drop 1
    let mk : Re → Re :=
      if c = '*' then Re.star greedy else if c = '+' then Re.plus greedy
      else Re.quest greedy
    match st.cur.repeatLast (c != '?') mk with
    | .error e => .error e
    | .ok f => .ok ({ st with cur := f }, rest2)
  else if c = '[' then
    match rest with
    | '^' :: rest2 =>
      match parseClass (rest2.length + 1) rest2 [] with
      | .error e => .error e
      | .ok (ranges, rest3) => .ok ({ st with cur := st.cur.push (.cls true ranges) }, rest3)
    | _ =>
      match parseClass (rest.length + 1) rest [] with
      | .error e => .error e
      | .ok (ranges, rest3) => .ok ({ st with cur := st.cur.push (.cls false ranges) }, rest3)
  else if c = '.' then .ok ({ st with cur := st.cur.push .any }, rest)
  else if c = '^' then .ok ({ st with cur := st.cur.push .beginText }, rest)
  else if c = '$' then .ok ({ st with cur := st.cur.push .endText }, rest)
  else if c = '\\' then
    match rest with
    | [] => .error (str "trailing backslash at end of expression")
    | e :: rest2 =>
      if e.toNat < 128 ∧ ¬ isAlnum e then .ok ({ st with cur := st.cur.push (.lit e) }, rest2)
      else .error outsideFragment
  else if c = '\x7b' then .error outsideFragment
  else .ok ({ st with cur := st.cur.push (.lit c) }, rest)

/-- The parser: steps until the pattern is used up. -/
def parseLoop : Nat → ParseState → List Char → CompileResult ParseState
  | 0, _, _ => .error outsideFragment
  | _ + 1, st, [] => .ok st
  | n + 1, st, c :: rest =>
    match parseStep st c rest with
    | .error e => .error e
    | .ok (st2, rest2) => parseLoop n st2 rest2

/-- Compile a pattern of the fragment. -/
def fragmentCompile (pattern : GoString) : CompileResult Compiled :=
  match parseLoop (pattern.length + 1)
      { cur := Frame.new none, outer := [], names := [] } pattern with
  | .error e => .error e
  | .ok st =>
    match st.outer with
    | [] => .ok { re := st.cur.close, names := [] :: st.names }
    | _ :: _ => .error (str "missing closing )")

/-- The spans of the capture groups set so far, most recent first. -/
abbrev Caps := List (Nat × (Nat × Nat))

/-- What is left to match after a piece: from a position and captures to the
captures of the whole match. -/
abbrev Cont := Nat → Caps → Option Caps

/-- The first alternative if it succeeds, the second otherwise. -/
def firstOf (x y : Option Caps) : Option Caps :=
  match x with
  | some r => some r
  | none => y

/-- Whether `c` lies in one of the ranges. -/
def inRanges (c : Char) (ranges : List (Char × Char)) : Bool :=
  ranges.any (fun r => r.1 ≤ c && c ≤ r.2)

/-- Match one character satisfying `p` at position `i`. -/
def matchChar (line : GoString) (p : Char → Bool) (i : Nat) (caps : Caps) (k : Cont) :
    Option Caps :=
  match line.get? i with
  | some c => if p c then k (i + 1) caps else none
  | none => none

/-- The iterations of a repetition: a greedy repetition tries an iteration
first and to stop second, a lazy one the other way round.  After an iteration
that consumed text the loop is entered again.  The body of a compiled pattern
always consumes text (`Frame.repeatLast`); for other bodies the loop is left
after an iteration that consumed nothing. -/
def starLoop (body : Nat → Caps → Cont → Option Caps) (greedy : Bool) :
    Nat → Nat → Caps → Cont → Option Caps
  | 0, i, caps, k => k i caps
  | fuel + 1, i, caps, k =>
    let more := body i caps
      (fun j caps2 => if i < j then starLoop body greedy fuel j caps2 k else k j caps2)
    if greedy then firstOf more (k i caps) else firstOf (k i caps) more

/-- Backtracking match of `re` at position `i` of `line`, then of `k`. -/
def Re.run (line : GoString) : Re → Nat → Caps → Cont → Option Caps
  | .empty, i, caps, k => k i caps
  | .lit c, i, caps, k => matchChar line (fun x => x = c) i caps k
  | .any, i, caps, k => matchChar line (fun x => x != '\n') i caps k
  | .cls negated ranges, i, caps, k =>
    matchChar line (fun x => inRanges x ranges != negated) i caps k
  | .beginText, i, caps, k => if i = 0 then k i caps else none
  | .endText, i, caps, k => if i = line.length then k i caps else none
  | .cat a b, i, caps, k => Re.run line a i caps (fun j caps2 => Re.run line b j caps2 k)
  | .alt a b, i, caps, k => firstOf (Re.run line a i caps k) (Re.run line b i caps k)
  | .star greedy a, i, caps, k =>
    starLoop (Re.run line a) greedy (line.length + 1) i caps k
  | .plus greedy a, i, caps, k =>
    Re.run line a i caps
      (fun j caps2 =>
        if i < j then starLoop (Re.run line a) greedy (line.length + 1) j caps2 k
        else k j caps2)
  | .quest greedy a, i, caps, k =>
    if greedy then firstOf (Re.run line a i caps k) (k i caps)
    else firstOf (k i caps) (Re.run line a i caps k)
  | .cap idx a, i, caps, k =>
    Re.run line a i caps (fun j caps2 => k j ((idx, (i, j)) :: caps2))

/-- The leftmost match: the first start position, from `start` on, at which
the expression matches; group 0 is the whole match. -/
def findFrom (line : GoString) (re : Re) : Nat → Nat → Option Caps
  | 0, _ => none
  | fuel + 1, start =>
    match Re.run line re start [] (fun j caps => some ((0, (start, j)) :: caps)) with
    | some caps => some caps
    | none => findFrom line re fuel (start + 1)

/-- The text of group `idx`, empty when the group took no part in the match. -/
def capText (line : GoString) (caps : Caps) (idx : Nat) : GoString :=
  match caps.lookup idx with
  | some (s, e) => (line.drop s).take (e - s)
  | none => []

/-- `FindStringSubmatch` for the fragment. -/
def fragmentFind (c : Compiled) (line : GoString) : List GoString :=
  match findFrom line c.re (line.length + 1) 0 with
  | none => []
  | some caps => (List.range c.names.length).map (capText line caps)

/-- The regexp package for the fragment. -/
def fragmentRegexp : RegexpPackage where
  Regexp := Compiled
  Compile := fragmentCompile
  FindStringSubmatch := fragmentFind
  SubexpNames := fun c => c.names

/-- The ranges of the class `[0-9a-fx]`. -/
def addressRanges : List (Char × Char) :=
  [('0', '9'), ('a', 'f'), ('x', 'x')]

/-- The composed pattern of `<(?P<p>.*)>`, compiled. -/
def examplePattern : Compiled :=
  { re := .cat (.cap 1 (.cat (.plus true (.cls false addressRanges)) .empty))
      (.cat (.lit ' ') (.cat (.lit '<')
        (.cat (.cap 2 (.cat (.star true .any) .empty)) (.cat (.lit '>') .empty)))),
    names := [[], str "address", str "p"] }

/-! ## Facts about the `strings` functions -/

theorem indexByte_eq_none {sep : Char} {s : GoString} :
    indexByte sep s = none ↔ sep ∉ s := by
  induction s with
  | nil => simp [indexByte]
  | cons c cs ih =>
    by_cases h : c = sep
    · simp [indexByte, h]
    · have h2 : ¬ sep = c := fun e => h e.symm
      simp [indexByte, h, h2, ih]

theorem indexByte_eq_some {sep : Char} {s : GoString} {m : Nat}
    (h : indexByte sep s = some m) :
    s = s.take m ++ sep :: s.drop (m + 1) ∧ sep ∉ s.take m := by
  induction s generalizing m with
  | nil => simp [indexByte] at h
  | cons c cs ih =>
    by_cases hc : c = sep
    · simp [indexByte, hc] at h
      subst h
      simp [hc]
    · simp only [indexByte, hc, if_false, Option.map_eq_some'] at h
      obtain ⟨k, hk, rfl⟩ := h
      obtain ⟨h1, h2⟩ := ih hk
      have h3 : ¬ sep = c := fun e => hc e.symm
      refine ⟨?_, ?_⟩
      · simp only [List.take_succ_cons, List.drop_succ_cons, List.cons_append]
        exact congrArg (c :: ·) h1
      · simp [h3, h2]

theorem Index_ne_neg_one {s : GoString} {sep : Char} :
    Index s sep ≠ -1 ↔ sep ∈ s := by
  unfold Index
  cases h : indexByte sep s with
  | none => simpa using indexByte_eq_none.mp h
  | some m =>
    have : sep ∈ s := by
      by_contra hn
      rw [indexByte_eq_none.mpr hn] at h
      exact Option.noConfusion h
    simp only [this, iff_true]
    omega

theorem genSplitLoop_ne_nil (sep : Char) (n : Nat) (s : GoString) :
    genSplitLoop sep n s ≠ [] := by
  cases n with
  | zero => simp [genSplitLoop]
  | succ n =>
    unfold genSplitLoop
    cases indexByte sep s <;> simp

theorem Split_eq_loop (s : GoString) (sep : Char) :
    Split s sep = genSplitLoop sep (Count s sep) s := by
  have h : Count s sep ≤ s.length := List.count_le_length _ _
  unfold Split genSplit
  have h1 : ¬ ((Count s sep : Int) + 1 > (s.length : Int) + 1) := by omega
  simp [h1]

theorem Join_foldl (sep e : GoString) (x : GoString) (rest : List GoString) :
    rest.foldl (fun b s => b ++ sep ++ s) (e ++ x) =
      e ++ rest.foldl (fun b s => b ++ sep ++ s) x := by
  induction rest generalizing x with
  | nil => rfl
  | cons r rs ih =>
    simp only [List.foldl_cons]
    rw [← ih]
    simp [List.append_assoc]

theorem Join_cons_cons (e e2 : GoString) (rest : List GoString) (sep : GoString) :
    Join (e :: e2 :: rest) sep = e ++ sep ++ Join (e2 :: rest) sep := by
  simp only [Join, List.foldl_cons]
  rw [Join_foldl]

theorem Join_singleton (e sep : GoString) : Join [e] sep = e := rfl

theorem Join_append_singleton (front : List GoString) (last sep : GoString)
    (h : front ≠ []) :
    Join (front ++ [last]) sep = Join front sep ++ sep ++ last := by
  induction front with
  | nil => exact absurd rfl h
  | cons e rest ih =>
    cases rest with
    | nil => simp [Join]
    | cons e2 rest2 =>
      have := ih (by simp)
      simp only [List.cons_append] at this ⊢
      rw [Join_cons_cons, this, Join_cons_cons]
      simp [List.append_assoc]

theorem Join_genSplitLoop (sep : Char) (n : Nat) (s : GoString) :
    Join (genSplitLoop sep n s) [sep] = s := by
  induction n generalizing s with
  | zero => rfl
  | succ n ih =>
    unfold genSplitLoop
    cases h : indexByte sep s with
    | none => rfl
    | some m =>
      simp only
      obtain ⟨x, xs, hx⟩ := List.exists_cons_of_ne_nil (genSplitLoop_ne_nil sep n (s.drop (m + 1)))
      have h2 := ih (s.drop (m + 1))
      rw [hx] at h2 ⊢
      rw [Join_cons_cons, h2]
      have := (indexByte_eq_some h).1
      simpa using this.symm

theorem length_genSplitLoop_of_mem {sep : Char} {n : Nat} {s : GoString}
    (h : sep ∈ s) : 2 ≤ (genSplitLoop sep (n + 1) s).length := by
  unfold genSplitLoop
  cases hi : indexByte sep s with
  | none => exact absurd h (indexByte_eq_none.mp hi)
  | some m =>
    simp only [List.length_cons]
    have := List.length_pos.mpr (genSplitLoop_ne_nil sep n (s.drop (m + 1)))
    omega

theorem getLast_genSplitLoop (sep : Char) (n : Nat) (s : GoString)
    (hn : s.count sep ≤ n) :
    ∀ x ∈ (genSplitLoop sep n s).getLast?, sep ∉ x := by
  induction n generalizing s with
  | zero =>
    intro x hx
    simp [genSplitLoop] at hx
    subst hx
    have : s.count sep = 0 := by omega
    exact List.count_eq_zero.mp this
  | succ n ih =>
    intro x hx
    unfold genSplitLoop at hx
    cases hi : indexByte sep s with
    | none =>
      rw [hi] at hx
      simp at hx
      subst hx
      exact indexByte_eq_none.mp hi
    | some m =>
      rw [hi] at hx
      simp only at hx
      obtain ⟨h1, h2⟩ := indexByte_eq_some hi
      have hc : (s.drop (m + 1)).count sep ≤ n := by
        have e : s.count sep = (s.take m).count sep + ((sep :: s.drop (m + 1)).count sep) := by
          conv_lhs => rw [h1]
          exact List.count_append _ _ _
        rw [List.count_cons_self, List.count_eq_zero.mpr h2] at e
        omega
      have hih := ih _ hc x
      obtain ⟨y, ys, hy⟩ :=
        List.exists_cons_of_ne_nil (genSplitLoop_ne_nil sep n (s.drop (m + 1)))
      rw [hy] at hx hih
      rw [List.getLast?_cons_cons] at hx
      exact hih hx

theorem goSliceTo_length_sub_one {α : Type} (xs : List α) (h : xs ≠ []) :
    goSliceTo xs ((xs.length : Int) - 1) = some xs.dropLast := by
  have hl : 0 < xs.length := List.length_pos.mpr h
  unfold goSliceTo
  have h1 : 0 ≤ (xs.length : Int) - 1 ∧ (xs.length : Int) - 1 ≤ (xs.length : Int) := by omega
  rw [if_pos h1]
  have h2 : ((xs.length : Int) - 1).toNat = xs.length - 1 := by omega
  rw [h2, List.dropLast_eq_take]

theorem goIndex_length_sub_one {α : Type} (xs : List α) (h : xs ≠ []) :
    goIndex xs ((xs.length : Int) - 1) = some (xs.getLast h) := by
  have hl : 0 < xs.length := List.length_pos.mpr h
  unfold goIndex
  have h1 : 0 ≤ (xs.length : Int) - 1 := by omega
  rw [if_pos h1]
  have h2 : ((xs.length : Int) - 1).toNat = xs.length - 1 := by omega
  rw [h2, ← List.getLast?_eq_getElem?, List.getLast?_eq_getLast _ h]

theorem Split_ne_nil (s : GoString) (sep : Char) : Split s sep ≠ [] := by
  rw [Split_eq_loop]
  exact genSplitLoop_ne_nil _ _ _

/-- Cutting at the separator and joining the pieces but the last gives the text
before the last separator. -/
theorem Split_dropLast {s : GoString} {sep : Char} (h : sep ∈ s) :
    ∃ t, s = Join (Split s sep).dropLast [sep] ++ sep :: t ∧ sep ∉ t := by
  have hne := Split_ne_nil s sep
  have hjoin : Join (Split s sep) [sep] = s := by
    rw [Split_eq_loop]; exact Join_genSplitLoop _ _ _
  have hlast : sep ∉ (Split s sep).getLast hne := by
    have := getLast_genSplitLoop sep (Count s sep) s (le_refl _)
    rw [← Split_eq_loop] at this
    exact this _ (by rw [List.getLast?_eq_getLast _ hne]; rfl)
  have hlen : 2 ≤ (Split s sep).length := by
    rw [Split_eq_loop]
    have hc : 0 < Count s sep := List.count_pos_iff.mpr h
    obtain ⟨k, hk⟩ := Nat.exists_eq_succ_of_ne_zero (Nat.pos_iff_ne_zero.mp hc)
    rw [hk]
    exact length_genSplitLoop_of_mem h
  have hfront : (Split s sep).dropLast ≠ [] := by
    intro e
    have := congrArg List.length e
    simp at this
    omega
  refine ⟨(Split s sep).getLast hne, ?_, hlast⟩
  have hsplit := List.dropLast_append_getLast hne
  have := Join_append_singleton (Split s sep).dropLast ((Split s sep).getLast hne) [sep] hfront
  rw [hsplit, hjoin] at this
  simpa using this

theorem importType_of_not_mem (a : Ast) {name : GoString} (h : '.' ∉ name) :
    a.importType name = some (name, a) := by
  unfold Ast.importType
  have : ¬ Index name '.' ≠ -1 := fun hh => h (Index_ne_neg_one.mp hh)
  rw [if_neg this]

theorem importType_of_mem (a : Ast) {name : GoString} (h : '.' ∈ name) :
    a.importType name =
      some ((Split name '/').getLast (Split_ne_nil name '/'),
        a.addImport (Join (Split name '.').dropLast (str "."))) := by
  unfold Ast.importType
  rw [if_pos (Index_ne_neg_one.mpr h)]
  simp only [goSliceTo_length_sub_one _ (Split_ne_nil name '.'),
    goIndex_length_sub_one _ (Split_ne_nil name '/')]

theorem importType_isSome (a : Ast) (name : GoString) :
    ∃ r a1, a.importType name = some (r, a1) := by
  by_cases h : '.' ∈ name
  · exact ⟨_, _, importType_of_mem a h⟩
  · exact ⟨_, _, importType_of_not_mem a h⟩

theorem alreadyImported_iff {name : GoString} {l : List GoString} :
    alreadyImported name l = true ↔ name ∈ l := by
  induction l with
  | nil => simp [alreadyImported]
  | cons i rest ih =>
    by_cases h : i = name
    · simp [alreadyImported, h]
    · have h2 : ¬ name = i := fun e => h e.symm
      simp [alreadyImported, h, h2, ih]

theorem imports_addImport (a : Ast) (name : GoString) :
    (a.addImport name).imports =
      if name ∈ a.imports then a.imports else a.imports ++ [name] := by
  unfold Ast.addImport
  by_cases h : name ∈ a.imports
  · rw [if_pos (alreadyImported_iff.mpr h), if_pos h]
  · have : ¬ alreadyImported name a.imports = true := fun e => h (alreadyImported_iff.mp e)
    rw [if_neg this, if_neg h]

/-! ## Facts about `Parse` -/

theorem take_indexByte {sep : Char} {s : GoString} {m : Nat}
    (h : indexByte sep s = some m) :
    s.take m = s.takeWhile (fun c => c != sep) := by
  induction s generalizing m with
  | nil => simp [indexByte] at h
  | cons c cs ih =>
    by_cases hc : c = sep
    · simp [indexByte, hc] at h
      subst h
      simp [hc]
    · simp only [indexByte, hc, if_false, Option.map_eq_some'] at h
      obtain ⟨k, hk, rfl⟩ := h
      simp [List.takeWhile_cons, hc, ih hk]

theorem takeWhile_of_indexByte_none {sep : Char} {s : GoString}
    (h : indexByte sep s = none) :
    s.takeWhile (fun c => c != sep) = s := by
  rw [List.takeWhile_eq_self_iff]
  intro c hc
  have := indexByte_eq_none.mp h
  simp only [bne_iff_ne, ne_eq]
  rintro rfl
  exact this hc

/-- The `nodeName` of `Parse` is the text before the first space. -/
theorem nodeName_eq (line : GoString) :
    goIndex (SplitN line ' ' 2) 0 = some (leadingKeyword line) := by
  unfold SplitN genSplit leadingKeyword goIndex
  cases line with
  | nil => simp [genSplitLoop]
  | cons c cs =>
    have h1 : ¬ ((2 : Int) > (((c :: cs).length : Nat) : Int) + 1) := by
      simp only [List.length_cons]; omega
    have h0 : ¬ ((2 : Int) = 0) := by decide
    have h3 : ¬ ((2 : Int) < 0) := by decide
    have h2 : ((2 : Int) - 1).toNat = 1 := by decide
    have h4 : (0 : Int) ≤ 0 := le_refl 0
    simp only [h0, h1, h2, h3, h4, if_false, if_true, Int.toNat_zero]
    unfold genSplitLoop
    cases h : indexByte ' ' (c :: cs) with
    | none => simp [takeWhile_of_indexByte_none h]
    | some m => simp [take_indexByte h]

/-- One `case` of the `switch` against one entry of the table. -/
theorem lookupOutcome_cons {R : Type} (line k k1 : GoString) (f : GoString → R)
    (rest : List (GoString × (GoString → R))) (b : ParseResult R)
    (h : b = lookupOutcome line k (lookupRule rest k)) :
    (if k = k1 then ParseResult.dispatched (f line) else b) =
      lookupOutcome line k (lookupRule ((k1, f) :: rest) k) := by
  by_cases hk : k = k1
  · simp only [hk, lookupRule, if_true, lookupOutcome]
  · simp only [hk, lookupRule, if_false, h]

/-- The `switch` of `Parse` is a lookup in the Grammar Table. -/
theorem Parse_eq_parseByTable {R : Type} (rules : Rules R) (line : GoString) :
    Parse rules line = parseByTable rules line := by
  unfold Parse parseByTable
  rw [nodeName_eq]
  generalize leadingKeyword line = k
  show (if k = str "AlwaysInlineAttr" then _ else _) = _
  unfold grammarTable
  repeat apply lookupOutcome_cons
  rfl

theorem lookupRule_eq_none {R : Type} {tbl : List (GoString × (GoString → R))}
    {k : GoString} (h : k ∉ tbl.map Prod.fst) : lookupRule tbl k = none := by
  induction tbl with
  | nil => rfl
  | cons e rest ih =>
    obtain ⟨k1, f⟩ := e
    simp only [List.map_cons, List.mem_cons, not_or] at h
    simp only [lookupRule, h.1, if_false]
    exact ih h.2

theorem lookupRule_of_mem {R : Type} {tbl : List (GoString × (GoString → R))}
    {k : GoString} {f : GoString → R} (hnd : (tbl.map Prod.fst).Nodup)
    (h : (k, f) ∈ tbl) : lookupRule tbl k = some f := by
  induction tbl with
  | nil => simp at h
  | cons e rest ih =>
    obtain ⟨k1, f1⟩ := e
    simp only [List.map_cons, List.nodup_cons] at hnd
    rcases List.mem_cons.mp h with h1 | h1
    · cases h1
      simp [lookupRule]
    · have hk : k ≠ k1 := by
        rintro rfl
        exact hnd.1 (List.mem_map.mpr ⟨(k, f), h1, rfl⟩)
      simp only [lookupRule, hk, if_false]
      exact ih hnd.2 h1

theorem map_fst_grammarTable {R : Type} (rules : Rules R) :
    (grammarTable rules).map Prod.fst = registeredKinds := rfl

theorem registeredKinds_nodup : registeredKinds.Nodup := by decide

theorem nullStmt_not_registered : str "NullStmt" ∉ registeredKinds := by decide

theorem registeredKinds_length : registeredKinds.length = 54 := rfl

theorem registered_no_space : ∀ k ∈ registeredKinds, ' ' ∉ k := by decide

theorem recognised_not_address :
    ∀ k ∈ recognisedKinds, k.all isAddressChar = false := by decide

theorem leadingKeyword_append_space {k : GoString} (h : ' ' ∉ k) (rest : GoString) :
    leadingKeyword (k ++ ' ' :: rest) = k := by
  unfold leadingKeyword
  induction k with
  | nil => simp
  | cons c cs ih =>
    simp only [List.mem_cons, not_or] at h
    have hc : c ≠ ' ' := fun e => h.1 e.symm
    simp [List.takeWhile_cons, hc]
    simpa using ih h.2

theorem leadingKeyword_prefix (line : GoString) : leadingKeyword line <+: line :=
  List.takeWhile_prefix _

theorem leadingKeyword_eq_self_iff (line : GoString) :
    leadingKeyword line = line ↔ ' ' ∉ line := by
  unfold leadingKeyword
  rw [List.takeWhile_eq_self_iff]
  constructor
  · intro h hm
    simpa using h _ hm
  · intro h c hc
    simp only [bne_iff_ne, ne_eq]
    rintro rfl
    exact h hc

theorem Parse_of_registered {R : Type} (rules : Rules R) (line : GoString)
    {k : GoString} {f : GoString → R} (hmem : (k, f) ∈ grammarTable rules)
    (hk : leadingKeyword line = k) :
    Parse rules line = .dispatched (f line) := by
  rw [Parse_eq_parseByTable]
  unfold parseByTable
  rw [hk, lookupRule_of_mem (by rw [map_fst_grammarTable]; exact registeredKinds_nodup) hmem]
  rfl

theorem Parse_of_nullStmt {R : Type} (rules : Rules R) (line : GoString)
    (hk : leadingKeyword line = str "NullStmt") : Parse rules line = .nil := by
  rw [Parse_eq_parseByTable]
  unfold parseByTable
  rw [hk, lookupRule_eq_none (by rw [map_fst_grammarTable]; exact nullStmt_not_registered)]
  rfl

theorem Parse_of_unrecognised {R : Type} (rules : Rules R) (line : GoString)
    (hk : leadingKeyword line ∉ recognisedKinds) :
    Parse rules line = .panic (unknownNodeType line) := by
  have h1 : leadingKeyword line ∉ registeredKinds := fun h =>
    hk (List.mem_append_left _ h)
  have h2 : leadingKeyword line ≠ str "NullStmt" := fun h =>
    hk (List.mem_append_right _ (by simp [h]))
  rw [Parse_eq_parseByTable]
  unfold parseByTable
  rw [lookupRule_eq_none (by rw [map_fst_grammarTable]; exact h1)]
  simp only [lookupOutcome, h2, if_false]

theorem Parse_of_recognised {R : Type} (rules : Rules R) (line : GoString)
    (hk : leadingKeyword line ∈ recognisedKinds) (msg : GoString) :
    Parse rules line ≠ .panic msg := by
  rcases List.mem_append.mp hk with h | h
  · rw [← map_fst_grammarTable rules] at h
    obtain ⟨⟨k, f⟩, hmem, hfst⟩ := List.mem_map.mp h
    rw [Parse_of_registered rules line hmem hfst.symm]
    exact fun e => ParseResult.noConfusion e
  · rw [Parse_of_nullStmt rules line (by simpa using h)]
    exact fun e => ParseResult.noConfusion e

/-! ## Facts about the import list -/

theorem nodup_addImport {a : Ast} (h : a.imports.Nodup) (name : GoString) :
    (a.addImport name).imports.Nodup := by
  rw [imports_addImport]
  by_cases hm : name ∈ a.imports
  · rw [if_pos hm]; exact h
  · rw [if_neg hm]
    exact List.Nodup.append h (List.nodup_singleton _) (by simpa using hm)

theorem prefix_addImport (a : Ast) (name : GoString) :
    a.imports <+: (a.addImport name).imports := by
  rw [imports_addImport]
  by_cases hm : name ∈ a.imports
  · rw [if_pos hm]
  · rw [if_neg hm]; exact List.prefix_append _ _

theorem mem_addImport (a : Ast) (name : GoString) :
    name ∈ (a.addImport name).imports := by
  rw [imports_addImport]
  by_cases hm : name ∈ a.imports
  · rw [if_pos hm]; exact hm
  · rw [if_neg hm]; simp

theorem call_cases (a : Ast) (c : Call) :
    a.call c = some a ∨ ∃ p, a.call c = some (a.addImport p) := by
  cases c with
  | addImport name => exact Or.inr ⟨name, rfl⟩
  | importType name =>
    by_cases h : '.' ∈ name
    · right
      refine ⟨Join (Split name '.').dropLast (str "."), ?_⟩
      simp only [Ast.call, importType_of_mem a h, Option.map_some']
    · left
      simp only [Ast.call, importType_of_not_mem a h, Option.map_some']

theorem calls_nodup (cs : List Call) (a : Ast) (h : a.imports.Nodup) :
    ∃ a2, a.calls cs = some a2 ∧ a2.imports.Nodup ∧ a.imports <+: a2.imports := by
  induction cs generalizing a with
  | nil => exact ⟨a, rfl, h, List.prefix_refl _⟩
  | cons c cs ih =>
    rcases call_cases a c with hc | ⟨p, hc⟩
    · obtain ⟨a2, h1, h2, h3⟩ := ih a h
      exact ⟨a2, by simp only [Ast.calls, hc, h1], h2, h3⟩
    · obtain ⟨a2, h1, h2, h3⟩ := ih (a.addImport p) (nodup_addImport h p)
      exact ⟨a2, by simp only [Ast.calls, hc, h1], h2,
        (prefix_addImport a p).trans h3⟩

theorem NewAst_nodup : NewAst.imports.Nodup := by
  simp [NewAst]

/-- The text before the last separator is determined by the string. -/
theorem before_last_unique {sep : Char} {p p2 t t2 : GoString}
    (h : p ++ sep :: t = p2 ++ sep :: t2) (ht : sep ∉ t) (ht2 : sep ∉ t2) :
    p = p2 := by
  induction p generalizing p2 with
  | nil =>
    cases p2 with
    | nil => rfl
    | cons c cs =>
      simp only [List.nil_append, List.cons_append, List.cons.injEq] at h
      exfalso
      apply ht
      rw [h.2]
      simp
  | cons c cs ih =>
    cases p2 with
    | nil =>
      simp only [List.nil_append, List.cons_append, List.cons.injEq] at h
      exfalso
      apply ht2
      rw [← h.2]
      simp
    | cons c2 cs2 =>
      simp only [List.cons_append, List.cons.injEq] at h
      rw [h.1, ih h.2]

theorem importType_segment (a : Ast) {name : GoString} (h : '.' ∈ name) :
    ∃ p r, IsNamespaceSegment p name ∧ a.importType name = some (r, a.addImport p) := by
  obtain ⟨t, ht, hnt⟩ := Split_dropLast h
  exact ⟨Join (Split name '.').dropLast (str "."), _, ⟨t, ht, hnt⟩, importType_of_mem a h⟩

theorem mem_imports_addImport {a : Ast} {name x : GoString}
    (h : x ∈ (a.addImport name).imports) : x ∈ a.imports ∨ x = name := by
  rw [imports_addImport] at h
  by_cases hm : name ∈ a.imports
  · rw [if_pos hm] at h; exact Or.inl h
  · rw [if_neg hm] at h; simpa using h

theorem calls_importType_derived (names : List GoString) (a0 : Ast)
    (P : GoString → Prop) (h0 : ∀ x ∈ a0.imports, P x) :
    ∃ a, a0.calls (names.map Call.importType) = some a ∧
      ∀ x ∈ a.imports,
        P x ∨ ∃ name ∈ names, '.' ∈ name ∧ IsNamespaceSegment x name := by
  induction names generalizing a0 P with
  | nil => exact ⟨a0, rfl, fun x hx => Or.inl (h0 x hx)⟩
  | cons name rest ih =>
    by_cases hd : '.' ∈ name
    · obtain ⟨p, r, hseg, hcall⟩ := importType_segment a0 hd
      obtain ⟨a, ha, hall⟩ := ih (a0.addImport p)
        (fun x => P x ∨ ('.' ∈ name ∧ IsNamespaceSegment x name))
        (fun x hx => by
          rcases mem_imports_addImport hx with h | h
          · exact Or.inl (h0 x h)
          · exact Or.inr ⟨hd, h ▸ hseg⟩)
      refine ⟨a, by simp only [List.map_cons, Ast.calls, Ast.call, hcall, Option.map_some', ha], ?_⟩
      intro x hx
      rcases hall x hx with (h | h) | ⟨n, hn, h⟩
      · exact Or.inl h
      · exact Or.inr ⟨name, List.mem_cons_self _ _, h⟩
      · exact Or.inr ⟨n, List.mem_cons_of_mem _ hn, h⟩
    · obtain ⟨a, ha, hall⟩ := ih a0 P h0
      refine ⟨a, by simp only [List.map_cons, Ast.calls, Ast.call,
        importType_of_not_mem a0 hd, Option.map_some', ha], ?_⟩
      intro x hx
      rcases hall x hx with h | ⟨n, hn, h⟩
      · exact Or.inl h
      · exact Or.inr ⟨n, List.mem_cons_of_mem _ hn, h⟩

theorem nodup_getElem?_unique {l : List GoString} (hnd : l.Nodup) {i j : Nat}
    {p : GoString} (hi : l[i]? = some p) (hj : l[j]? = some p) : i = j := by
  obtain ⟨h1, e1⟩ := List.getElem?_eq_some.mp hi
  obtain ⟨h2, e2⟩ := List.getElem?_eq_some.mp hj
  exact (hnd.getElem_inj_iff).mp (e1.trans e2.symm)

/-! ## Claims about `Parse` -/

/-- C1: a record whose leading keyword is not one of the recognised keywords
makes `Parse` fail with the unrecognised-kind panic (no node is returned); a
record whose leading keyword is one of the 54 registered kinds or `NullStmt`
never raises that panic.  The empty line and every line starting with a space
fail this way. -/
theorem Parse_unrecognisedKind {R : Type} (rules : Rules R) (line : GoString) :
    (leadingKeyword line ∉ recognisedKinds →
        Parse rules line = .panic (unknownNodeType line)) ∧
      (leadingKeyword line ∈ recognisedKinds →
        ∀ msg, Parse rules line ≠ .panic msg) ∧
      Parse rules [] = .panic (unknownNodeType []) ∧
      (∀ rest, Parse rules (' ' :: rest) = .panic (unknownNodeType (' ' :: rest))) ∧
      recognisedKinds.length = 55 := by
  refine ⟨Parse_of_unrecognised rules line, Parse_of_recognised rules line, ?_, ?_, rfl⟩
  · exact Parse_of_unrecognised rules [] (by decide)
  · intro rest
    apply Parse_of_unrecognised
    have : leadingKeyword (' ' :: rest) = [] := by simp [leadingKeyword]
    rw [this]
    decide

theorem Parse_unrecognisedKind_witness :
    (leadingKeyword (str "Foo bar") ∉ recognisedKinds ∧
        Parse tagRules (str "Foo bar") = .panic (unknownNodeType (str "Foo bar"))) ∧
      (leadingKeyword (str "IfStmt 0x1") ∈ recognisedKinds ∧
        ∀ msg, Parse tagRules (str "IfStmt 0x1") ≠ .panic msg) :=
  ⟨⟨by decide, (Parse_unrecognisedKind tagRules (str "Foo bar")).1 (by decide)⟩,
    ⟨by decide, (Parse_unrecognisedKind tagRules (str "IfStmt 0x1")).2.1 (by decide)⟩⟩

/-- C2, as stated, fails: for the record `Foo bar` the unknown keyword is `Foo`,
but the panic quotes the whole record `Foo bar`. -/
theorem Parse_cites_keyword_counterexample :
    leadingKeyword (str "Foo bar") = str "Foo" ∧
      str "Foo" ∉ recognisedKinds ∧
      Parse tagRules (str "Foo bar") = .panic (str "Unknown node type: 'Foo bar'") ∧
      Parse tagRules (str "Foo bar") ≠ .panic (unknownNodeType (str "Foo")) := by
  decide

/-- C2, amended: for a record whose leading keyword is not recognised, the
panic quotes the whole record; the unknown keyword is the part of the quoted
text before its first space, and the quoted text is the keyword itself exactly
when the record has no space. -/
theorem Parse_cites_line {R : Type} (rules : Rules R) (line : GoString)
    (hk : leadingKeyword line ∉ recognisedKinds) :
    Parse rules line =
        .panic (str "Unknown node type: '" ++ line ++ str "'") ∧
      leadingKeyword line <+: line ∧
      (leadingKeyword line = line ↔ ' ' ∉ line) :=
  ⟨Parse_of_unrecognised rules line hk, leadingKeyword_prefix line,
    leadingKeyword_eq_self_iff line⟩

theorem Parse_cites_line_witness :
    leadingKeyword (str "Foo bar") ∉ recognisedKinds ∧
      (Parse tagRules (str "Foo bar") =
          .panic (str "Unknown node type: '" ++ str "Foo bar" ++ str "'") ∧
        leadingKeyword (str "Foo bar") <+: str "Foo bar" ∧
        (leadingKeyword (str "Foo bar") = str "Foo bar" ↔ ' ' ∉ str "Foo bar")) :=
  ⟨by decide, Parse_cites_line tagRules (str "Foo bar") (by decide)⟩

/-- C3: `Parse` is the table lookup of the specification; for a record whose
leading keyword `k` is registered with rule `f`, `Parse` returns `f` applied to
the whole record, `f` is the only rule the table holds for `k`, and every other
record with the same leading keyword goes to the same rule.  `Enum`,
`EnumConstantDecl`, `EnumDecl` and `EnumType` each go to their own rule. -/
theorem Parse_is_lookup {R : Type} (rules : Rules R) (line k : GoString)
    (f : GoString → R) (hmem : (k, f) ∈ grammarTable rules)
    (hk : leadingKeyword line = k) :
    Parse rules line = parseByTable rules line ∧
      Parse rules line = .dispatched (f line) ∧
      (∀ g, (k, g) ∈ grammarTable rules → g = f) ∧
      (∀ line2, leadingKeyword line2 = k →
        Parse rules line2 = .dispatched (f line2)) ∧
      (∀ rest,
        Parse rules (str "Enum" ++ ' ' :: rest) =
            .dispatched (rules.parseEnum (str "Enum" ++ ' ' :: rest)) ∧
          Parse rules (str "EnumConstantDecl" ++ ' ' :: rest) =
            .dispatched (rules.parseEnumConstantDecl (str "EnumConstantDecl" ++ ' ' :: rest)) ∧
          Parse rules (str "EnumDecl" ++ ' ' :: rest) =
            .dispatched (rules.parseEnumDecl (str "EnumDecl" ++ ' ' :: rest)) ∧
          Parse rules (str "EnumType" ++ ' ' :: rest) =
            .dispatched (rules.parseEnumType (str "EnumType" ++ ' ' :: rest))) := by
  have hnd : ((grammarTable rules).map Prod.fst).Nodup := by
    rw [map_fst_grammarTable]; exact registeredKinds_nodup
  refine ⟨Parse_eq_parseByTable rules line, Parse_of_registered rules line hmem hk, ?_,
    fun line2 h2 => Parse_of_registered rules line2 hmem h2, ?_⟩
  · intro g hg
    have h1 := lookupRule_of_mem hnd hg
    have h2 := lookupRule_of_mem hnd hmem
    rw [h1] at h2
    exact Option.some.inj h2
  · intro rest
    refine ⟨?_, ?_, ?_, ?_⟩
    · exact Parse_of_registered rules _ (f := rules.parseEnum)
        (by simp [grammarTable]) (leadingKeyword_append_space (by decide) rest)
    · exact Parse_of_registered rules _ (f := rules.parseEnumConstantDecl)
        (by simp [grammarTable]) (leadingKeyword_append_space (by decide) rest)
    · exact Parse_of_registered rules _ (f := rules.parseEnumDecl)
        (by simp [grammarTable]) (leadingKeyword_append_space (by decide) rest)
    · exact Parse_of_registered rules _ (f := rules.parseEnumType)
        (by simp [grammarTable]) (leadingKeyword_append_space (by decide) rest)

theorem Parse_is_lookup_witness :
    (str "EnumDecl", tagRules.parseEnumDecl) ∈ grammarTable tagRules ∧
      leadingKeyword (str "EnumDecl 0x1 foo") = str "EnumDecl" ∧
      Parse tagRules (str "EnumDecl 0x1 foo") =
        .dispatched (tagRules.parseEnumDecl (str "EnumDecl 0x1 foo")) :=
  ⟨by simp [grammarTable], by decide,
    (Parse_is_lookup tagRules (str "EnumDecl 0x1 foo") (str "EnumDecl")
      tagRules.parseEnumDecl (by simp [grammarTable]) (by decide)).2.1⟩

/-- C4, as stated, fails: the record `0x7f8a IfStmt <line:11:7, line:18:7>`
begins with an address token followed by the registered keyword `IfStmt`, and
`Parse` fails on it with the unrecognised-kind panic. -/
theorem Parse_address_first_counterexample :
    (∀ c ∈ str "0x7f8a", isAddressChar c = true) ∧
      str "IfStmt" ∈ registeredKinds ∧
      Parse tagRules (str "0x7f8a IfStmt <line:11:7, line:18:7>") =
        .panic (str "Unknown node type: '0x7f8a IfStmt <line:11:7, line:18:7>'") := by
  decide

/-- C4, amended: `Parse` dispatches on the first space-delimited field of the
record and captures no address.  A record that begins with an address token
(characters `0-9`, `a-f`, `x`) fails with the unrecognised-kind panic, whatever
follows; a record that begins with a registered kind keyword, followed by the
address token and the fields, is dispatched to that keyword's rule, which
receives the whole record, address included. -/
theorem Parse_keyword_first {R : Type} (rules : Rules R) (addr rest : GoString)
    (haddr : ∀ c ∈ addr, isAddressChar c = true) :
    Parse rules (addr ++ ' ' :: rest) =
        .panic (unknownNodeType (addr ++ ' ' :: rest)) ∧
      ∀ k f, (k, f) ∈ grammarTable rules →
        Parse rules (k ++ ' ' :: (addr ++ ' ' :: rest)) =
          .dispatched (f (k ++ ' ' :: (addr ++ ' ' :: rest))) := by
  constructor
  · apply Parse_of_unrecognised
    have hsp : ' ' ∉ addr := fun h => by
      have := haddr _ h
      revert this
      decide
    rw [leadingKeyword_append_space hsp]
    intro hmem
    have h1 := recognised_not_address addr hmem
    have h2 : addr.all isAddressChar = true := List.all_eq_true.mpr haddr
    rw [h1] at h2
    exact Bool.noConfusion h2
  · intro k f hmem
    apply Parse_of_registered rules _ hmem
    apply leadingKeyword_append_space
    apply registered_no_space
    rw [← map_fst_grammarTable rules]
    exact List.mem_map.mpr ⟨(k, f), hmem, rfl⟩

theorem Parse_keyword_first_witness :
    (∀ c ∈ str "0x7f8a", isAddressChar c = true) ∧
      Parse tagRules (str "0x7f8a" ++ ' ' :: str "IfStmt <line:11:7, line:18:7>") =
        .panic (unknownNodeType
          (str "0x7f8a" ++ ' ' :: str "IfStmt <line:11:7, line:18:7>")) ∧
      Parse tagRules
          (str "IfStmt" ++ ' ' :: (str "0x7f8a" ++ ' ' :: str "<line:11:7, line:18:7>")) =
        .dispatched (tagRules.parseIfStmt
          (str "IfStmt" ++ ' ' :: (str "0x7f8a" ++ ' ' :: str "<line:11:7, line:18:7>"))) :=
  ⟨by decide,
    (Parse_keyword_first tagRules (str "0x7f8a") (str "IfStmt <line:11:7, line:18:7>")
      (by decide)).1,
    (Parse_keyword_first tagRules (str "0x7f8a") (str "<line:11:7, line:18:7>")
      (by decide)).2 (str "IfStmt") tagRules.parseIfStmt (by simp [grammarTable])⟩

/-- C5: for every record whose leading keyword is `NullStmt`, whatever follows
the first space, `Parse` returns `nil`: it does not fail, and the result is the
same for every set of rules, none of which is run. -/
theorem Parse_NullStmt {R : Type} (rules : Rules R) (line : GoString)
    (hk : leadingKeyword line = str "NullStmt") :
    Parse rules line = .nil ∧
      (∀ rest, Parse rules (str "NullStmt" ++ ' ' :: rest) = .nil) ∧
      Parse rules (str "NullStmt") = .nil := by
  refine ⟨Parse_of_nullStmt rules line hk, fun rest => ?_, ?_⟩
  · exact Parse_of_nullStmt rules _ (leadingKeyword_append_space (by decide) rest)
  · exact Parse_of_nullStmt rules _ (by decide)

theorem Parse_NullStmt_witness :
    leadingKeyword (str "NullStmt 0x7f8a <col:5>") = str "NullStmt" ∧
      Parse tagRules (str "NullStmt 0x7f8a <col:5>") = .nil :=
  ⟨by decide, (Parse_NullStmt tagRules (str "NullStmt 0x7f8a <col:5>") (by decide)).1⟩
/-! ## Claims about the import list -/

/-- C6: the import list never holds duplicates: every finite sequence of
`addImport` and `importType` calls, with arbitrary arguments, on the context of
`NewAst` runs to the end, and the list `Imports` then returns has pairwise
distinct elements. -/
theorem Imports_nodup (cs : List Call) :
    ∃ a, NewAst.calls cs = some a ∧ a.Imports.Nodup := by
  obtain ⟨a, h1, h2, _⟩ := calls_nodup cs NewAst NewAst_nodup
  exact ⟨a, h1, h2⟩

/-- C7, as stated, fails: the context of `NewAst` already imports `fmt`, which
is the namespace segment of no name passed to `importType`, both after no call
at all and after `importType("os.File")`. -/
theorem Imports_derived_counterexample :
    (NewAst.calls (([] : List GoString).map Call.importType) = some NewAst ∧
        str "fmt" ∈ NewAst.Imports ∧
        ¬ ∃ name ∈ ([] : List GoString),
          '.' ∈ name ∧ IsNamespaceSegment (str "fmt") name) ∧
      (∃ a, NewAst.calls ([str "os.File"].map Call.importType) = some a ∧
        a.Imports = [str "fmt", str "os"] ∧
        ¬ ∃ name ∈ [str "os.File"],
          '.' ∈ name ∧ IsNamespaceSegment (str "fmt") name) := by
  refine ⟨⟨rfl, by decide, by simp⟩, ⟨_, rfl, by decide, ?_⟩⟩
  rintro ⟨name, hname, -, t, ht, hnt⟩
  rw [List.mem_singleton] at hname
  subst hname
  have h2 : str "os.File" = str "os" ++ '.' :: str "File" := by decide
  have := before_last_unique (h2.symm.trans ht) (by decide) hnt
  revert this
  decide

/-- C7, amended: after any (possibly empty) sequence of `importType` calls on
the context of `NewAst`, every element of `Imports` is either `fmt`, which
`NewAst` puts there, or the namespace segment of some name containing `.` that
was passed to `importType`. -/
theorem Imports_derived (names : List GoString) :
    ∃ a, NewAst.calls (names.map Call.importType) = some a ∧
      ∀ x ∈ a.Imports,
        x = str "fmt" ∨
          ∃ name ∈ names, '.' ∈ name ∧ IsNamespaceSegment x name := by
  apply calls_importType_derived names NewAst (fun x => x = str "fmt")
  intro x hx
  simpa [NewAst] using hx

/-- C8: `addImport(name)` leaves the import list unchanged when some element
equals `name`, and otherwise appends `name` as the last element. -/
theorem addImport_appends (a : Ast) (name : GoString) :
    (name ∈ a.Imports → (a.addImport name).Imports = a.Imports) ∧
      (name ∉ a.Imports → (a.addImport name).Imports = a.Imports ++ [name]) := by
  unfold Ast.Imports
  rw [imports_addImport]
  exact ⟨fun h => if_pos h, fun h => if_neg h⟩

theorem addImport_appends_witness :
    (str "fmt" ∈ NewAst.Imports ∧
        (NewAst.addImport (str "fmt")).Imports = NewAst.Imports) ∧
      (str "os" ∉ NewAst.Imports ∧
        (NewAst.addImport (str "os")).Imports = NewAst.Imports ++ [str "os"]) :=
  ⟨⟨by decide, (addImport_appends NewAst (str "fmt")).1 (by decide)⟩,
    ⟨by decide, (addImport_appends NewAst (str "os")).2 (by decide)⟩⟩
/-- C9: once `importType(name)` has been called for a name containing `.`, in a
context reached from `NewAst`, the namespace segment of `name` occurs exactly
once in `Imports`, and after any further sequence of `addImport` and
`importType` calls (repeats of the same name included) it still occurs exactly
once, at the same position: one index holds it in both lists, and no other
index of either list does. -/
theorem import_exactly_once (before after : List Call) (name : GoString)
    (h : '.' ∈ name) :
    ∃ a0 r a1 a2 p,
      NewAst.calls before = some a0 ∧
        a0.importType name = some (r, a1) ∧
        a1.calls after = some a2 ∧
        IsNamespaceSegment p name ∧
        ∃ i : Nat,
          (∀ j : Nat, a1.Imports[j]? = some p ↔ j = i) ∧
            (∀ j : Nat, a2.Imports[j]? = some p ↔ j = i) := by
  obtain ⟨a0, h0, hnd0, _⟩ := calls_nodup before NewAst NewAst_nodup
  obtain ⟨p, r, hseg, hcall⟩ := importType_segment a0 h
  have hnd1 := nodup_addImport hnd0 p
  have hmem1 := mem_addImport a0 p
  obtain ⟨a2, h2, hnd2, hpre⟩ := calls_nodup after (a0.addImport p) hnd1
  obtain ⟨i, hi⟩ := List.mem_iff_getElem?.mp hmem1
  obtain ⟨s, hs⟩ := hpre
  have hlt : i < (a0.addImport p).imports.length := by
    by_contra hge
    rw [List.getElem?_eq_none (Nat.le_of_not_lt hge)] at hi
    exact Option.noConfusion hi
  have hi2 : a2.imports[i]? = some p := by
    rw [← hs, List.getElem?_append_left hlt]
    exact hi
  exact ⟨a0, r, a0.addImport p, a2, p, h0, hcall, h2, hseg, i,
    fun j => ⟨fun hj => nodup_getElem?_unique hnd1 hj hi, fun e => e ▸ hi⟩,
    fun j => ⟨fun hj => nodup_getElem?_unique hnd2 hj hi2, fun e => e ▸ hi2⟩⟩

theorem import_exactly_once_witness :
    '.' ∈ str "os.File" ∧
      ∃ a0 r a1 a2 p,
        NewAst.calls [Call.importType (str "io.Reader")] = some a0 ∧
          a0.importType (str "os.File") = some (r, a1) ∧
          a1.calls [Call.importType (str "os.File"), Call.addImport (str "os")] = some a2 ∧
          IsNamespaceSegment p (str "os.File") ∧
          ∃ i : Nat,
            (∀ j : Nat, a1.Imports[j]? = some p ↔ j = i) ∧
              (∀ j : Nat, a2.Imports[j]? = some p ↔ j = i) :=
  ⟨by decide,
    import_exactly_once [Call.importType (str "io.Reader")]
      [Call.importType (str "os.File"), Call.addImport (str "os")] (str "os.File")
      (by decide)⟩

/-- C10: for every name containing `.`, `importType` registers the namespace
segment `p` of the name (`name = p ++ "." ++ t` with no `.` in `t`, which
determines `p`): after the call `Imports` contains `p`, and it is the old list,
with `p` appended when it was not there yet, so nothing else is added. -/
theorem importType_registers (a : Ast) (name : GoString) (h : '.' ∈ name) :
    ∃ p t r a1,
      name = p ++ '.' :: t ∧ '.' ∉ t ∧
        (∀ p2 t2, name = p2 ++ '.' :: t2 → '.' ∉ t2 → p2 = p) ∧
        a.importType name = some (r, a1) ∧
        p ∈ a1.Imports ∧
        a1.Imports = (if p ∈ a.Imports then a.Imports else a.Imports ++ [p]) := by
  obtain ⟨p, r, ⟨t, ht, hnt⟩, hcall⟩ := importType_segment a h
  refine ⟨p, t, r, a.addImport p, ht, hnt, ?_, hcall, mem_addImport a p,
    imports_addImport a p⟩
  intro p2 t2 h2 hnt2
  exact before_last_unique (h2.symm.trans ht) hnt2 hnt

theorem importType_registers_witness :
    '.' ∈ str "github.com/a/b.T" ∧
      ∃ p t r a1,
        str "github.com/a/b.T" = p ++ '.' :: t ∧ '.' ∉ t ∧
          (∀ p2 t2, str "github.com/a/b.T" = p2 ++ '.' :: t2 → '.' ∉ t2 → p2 = p) ∧
          NewAst.importType (str "github.com/a/b.T") = some (r, a1) ∧
          p ∈ a1.Imports ∧
          a1.Imports =
            (if p ∈ NewAst.Imports then NewAst.Imports else NewAst.Imports ++ [p]) :=
  ⟨by decide, importType_registers NewAst (str "github.com/a/b.T") (by decide)⟩

/-! ## More facts about `Split` and `importType` -/

theorem afterLast_of_not_mem {sep : Char} {s : GoString} (h : sep ∉ s) :
    afterLast sep s = s := by
  unfold afterLast
  have : s.reverse.takeWhile (fun c => c != sep) = s.reverse := by
    rw [List.takeWhile_eq_self_iff]
    intro c hc
    simp only [bne_iff_ne, ne_eq]
    rintro rfl
    exact h (List.mem_reverse.mp hc)
  rw [this, List.reverse_reverse]

theorem afterLast_append_cons {sep : Char} (q r : GoString) (h : sep ∉ r) :
    afterLast sep (q ++ sep :: r) = r := by
  unfold afterLast
  have e : (q ++ sep :: r).reverse = r.reverse ++ sep :: q.reverse := by simp
  rw [e, List.takeWhile_append_of_pos]
  · simp
  · intro c hc
    simp only [bne_iff_ne, ne_eq]
    rintro rfl
    exact h (List.mem_reverse.mp hc)

/-- The last piece of a split is the text after the last separator. -/
theorem Split_getLast (s : GoString) (sep : Char) :
    (Split s sep).getLast (Split_ne_nil s sep) = afterLast sep s := by
  have hne := Split_ne_nil s sep
  have hlast : sep ∉ (Split s sep).getLast hne := by
    have := getLast_genSplitLoop sep (Count s sep) s (le_refl _)
    rw [← Split_eq_loop] at this
    exact this _ (by rw [List.getLast?_eq_getLast _ hne]; rfl)
  have hjoin : Join (Split s sep) [sep] = s := by
    rw [Split_eq_loop]; exact Join_genSplitLoop _ _ _
  have hsplit := List.dropLast_append_getLast hne
  by_cases hfront : (Split s sep).dropLast = []
  · rw [hfront, List.nil_append] at hsplit
    rw [← hsplit, Join_singleton] at hjoin
    have h2 : sep ∉ s := by rw [← hjoin]; exact hlast
    rw [afterLast_of_not_mem h2]
    exact hjoin
  · have := Join_append_singleton (Split s sep).dropLast ((Split s sep).getLast hne)
      [sep] hfront
    rw [hsplit, hjoin] at this
    have e : s = Join (Split s sep).dropLast [sep] ++ sep :: (Split s sep).getLast hne := by
      simpa using this
    conv_rhs => rw [e]
    rw [afterLast_append_cons _ _ hlast]

theorem importType_eq (a : Ast) {name : GoString} (h : '.' ∈ name) :
    a.importType name =
      some (afterLast '/' name, a.addImport (Join (Split name '.').dropLast (str "."))) := by
  rw [importType_of_mem a h, Split_getLast]

theorem afterLast_append_of_not_mem {sep : Char} (q u : GoString) (h : sep ∉ u) :
    afterLast sep (q ++ u) = afterLast sep q ++ u := by
  unfold afterLast
  rw [List.reverse_append, List.takeWhile_append_of_pos]
  · simp
  · intro c hc
    simp only [bne_iff_ne, ne_eq]
    rintro rfl
    exact h (List.mem_reverse.mp hc)

theorem afterLast_append_of_mem {sep : Char} (q u : GoString) (h : sep ∈ u) :
    afterLast sep (q ++ u) = afterLast sep u := by
  obtain ⟨t, ht, hnt⟩ := Split_dropLast h
  generalize Join (Split u sep).dropLast [sep] = u1 at ht
  subst ht
  rw [afterLast_append_cons _ _ hnt, ← List.append_assoc, afterLast_append_cons _ _ hnt]

theorem afterLast_not_mem (sep : Char) (s : GoString) : sep ∉ afterLast sep s := by
  unfold afterLast
  intro h
  have h2 := List.mem_takeWhile_imp (List.mem_reverse.mp h)
  simp at h2

theorem afterLast_suffix (sep : Char) (s : GoString) : afterLast sep s <:+ s := by
  unfold afterLast
  have := List.takeWhile_prefix (fun c => c != sep) (l := s.reverse)
  have h2 := List.reverse_suffix.mpr this
  rwa [List.reverse_reverse] at h2

theorem afterLast_cases {sep : Char} {s : GoString} (h : sep ∈ s) :
    ∃ q, s = q ++ sep :: afterLast sep s := by
  obtain ⟨t, ht, hnt⟩ := Split_dropLast h
  generalize Join (Split s sep).dropLast [sep] = q at ht
  subst ht
  exact ⟨q, by rw [afterLast_append_cons _ _ hnt]⟩

theorem addImport_frame (a : Ast) (name : GoString) :
    (a.addImport name).functionName = a.functionName ∧
      (a.addImport name).indent = a.indent ∧
      (a.addImport name).returnType = a.returnType := by
  unfold Ast.addImport
  split <;> exact ⟨rfl, rfl, rfl⟩

theorem length_addImport_le (a : Ast) (name : GoString) :
    (a.addImport name).imports.length ≤ a.imports.length + 1 := by
  rw [imports_addImport]
  split <;> simp

/-! ## Facts about `groupsFromRegex` -/

theorem filter_of_not_mem {old : Char} {s : GoString} (h : old ∉ s) :
    s.filter (fun c => c != old) = s := by
  rw [List.filter_eq_self]
  intro c hc
  simp only [bne_iff_ne, ne_eq]
  rintro rfl
  exact h hc

theorem replaceLoop_nil (old : Char) (n : Nat) (s : GoString) (hn : s.count old ≤ n) :
    replaceLoop old [] n s = s.filter (fun c => c != old) := by
  induction n generalizing s with
  | zero =>
    have : s.count old = 0 := by omega
    rw [filter_of_not_mem (List.count_eq_zero.mp this)]
    rfl
  | succ n ih =>
    unfold replaceLoop
    cases hi : indexByte old s with
    | none => exact (filter_of_not_mem (indexByte_eq_none.mp hi)).symm
    | some j =>
      obtain ⟨h1, h2⟩ := indexByte_eq_some hi
      have hc : (s.drop (j + 1)).count old ≤ n := by
        have e : s.count old = (s.take j).count old + ((old :: s.drop (j + 1)).count old) := by
          conv_lhs => rw [h1]
          exact List.count_append _ _ _
        rw [List.count_cons_self, List.count_eq_zero.mpr h2] at e
        omega
      simp only [List.append_nil]
      rw [ih _ hc]
      conv_rhs => rw [h1]
      rw [List.filter_append, filter_of_not_mem h2]
      simp

theorem Replace_nil (s : GoString) (old : Char) :
    Replace s old [] (-1) = s.filter (fun c => c != old) := by
  unfold Replace
  have h1 : ¬ ([old] = ([] : GoString) ∨ (-1 : Int) = 0) := by
    rintro (h | h)
    · exact List.noConfusion h
    · exact absurd h (by decide)
  rw [if_neg h1]
  by_cases hm : Count s old = 0
  · simp only [hm, if_true]
    exact (filter_of_not_mem (List.count_eq_zero.mp hm)).symm
  · simp only [hm, if_false]
    have h2 : ((-1 : Int) < 0 ∨ (Count s old : Int) < -1) := Or.inl (by decide)
    rw [if_pos h2]
    exact replaceLoop_nil old _ s (le_refl _)

theorem fullRegexp_eq (rx : GoString) :
    fullRegexp rx = str "(?P<address>[0-9a-fx]+) " ++ withoutLayout rx := by
  unfold fullRegexp withoutLayout
  rw [Replace_nil, Replace_nil, List.filter_filter]
  congr 1
  apply List.filter_congr
  intro c _
  exact Bool.and_comm _ _

theorem withoutLayout_idem (rx : GoString) :
    withoutLayout (withoutLayout rx) = withoutLayout rx := by
  unfold withoutLayout
  rw [List.filter_filter]
  apply List.filter_congr
  intro c _
  simp

theorem mapGet_mapSet_self (m : GoMap) (k v : GoString) :
    mapGet (mapSet m k v) k = some v := by
  induction m with
  | nil => simp [mapSet, mapGet]
  | cons e rest ih =>
    obtain ⟨k1, v1⟩ := e
    by_cases h : k1 = k
    · simp [mapSet, mapGet, h]
    · simp [mapSet, mapGet, h, ih]

theorem mapGet_mapSet_ne (m : GoMap) {k k2 : GoString} (v : GoString) (h : k ≠ k2) :
    mapGet (mapSet m k v) k2 = mapGet m k2 := by
  induction m with
  | nil => simp [mapSet, mapGet, h]
  | cons e rest ih =>
    obtain ⟨k1, v1⟩ := e
    by_cases h1 : k1 = k
    · subst h1
      simp [mapSet, mapGet, h]
    · by_cases h2 : k1 = k2
      · subst h2
        simp only [mapSet, h1, if_false, mapGet, if_true]
      · simp only [mapSet, h1, if_false, mapGet, h2, ih]

theorem groupsLoop_get_of_not_mem (found : List GoString) (names : List GoString)
    (k : GoString) (hk : k ∉ names) (i : Nat) (res res2 : GoMap)
    (h : groupsLoop found i names res = some res2) :
    mapGet res2 k = mapGet res k := by
  induction names generalizing i res with
  | nil =>
    simp only [groupsLoop, Option.some.injEq] at h
    rw [← h]
  | cons name rest ih =>
    simp only [List.mem_cons, not_or] at hk
    unfold groupsLoop at h
    by_cases hi : i ≠ 0
    · rw [if_pos hi] at h
      cases hg : goIndex found (i : Int) with
      | none => rw [hg] at h; exact Option.noConfusion h
      | some v =>
        rw [hg] at h
        rw [ih hk.2 _ _ h]
        exact mapGet_mapSet_ne _ _ (fun e => hk.1 e.symm)
    · rw [if_neg hi] at h
      exact ih hk.2 _ _ h

theorem groupsLoop_isSome (found : List GoString) (names : List GoString) (i : Nat)
    (res : GoMap) (h : i + names.length ≤ found.length) :
    ∃ res2, groupsLoop found i names res = some res2 := by
  induction names generalizing i res with
  | nil => exact ⟨res, rfl⟩
  | cons name rest ih =>
    simp only [List.length_cons] at h
    unfold groupsLoop
    by_cases hi : i ≠ 0
    · rw [if_pos hi]
      have hlt : i < found.length := by omega
      have hg : goIndex found (i : Int) = some (found.get ⟨i, hlt⟩) := by
        unfold goIndex
        rw [if_pos (Int.natCast_nonneg i)]
        simp [List.getElem?_eq_getElem hlt]
      rw [hg]
      exact ih (i + 1) _ (by omega)
    · rw [if_neg hi]
      exact ih (i + 1) _ (by omega)

theorem mapGet_mapSet_isSome (m : GoMap) (k v k2 : GoString)
    (h : (mapGet m k2).isSome = true) : (mapGet (mapSet m k v) k2).isSome = true := by
  by_cases hk : k = k2
  · subst hk
    rw [mapGet_mapSet_self]; rfl
  · rw [mapGet_mapSet_ne _ _ hk]; exact h

theorem groupsLoop_keeps (found : List GoString) (names : List GoString) (k : GoString)
    (i : Nat) (res res2 : GoMap) (h : groupsLoop found i names res = some res2)
    (hk : (mapGet res k).isSome = true) : (mapGet res2 k).isSome = true := by
  induction names generalizing i res with
  | nil =>
    simp only [groupsLoop, Option.some.injEq] at h
    rw [← h]; exact hk
  | cons name rest ih =>
    unfold groupsLoop at h
    by_cases hi : i ≠ 0
    · rw [if_pos hi] at h
      cases hg : goIndex found (i : Int) with
      | none => rw [hg] at h; exact Option.noConfusion h
      | some v =>
        rw [hg] at h
        exact ih _ _ h (mapGet_mapSet_isSome _ _ _ _ hk)
    · rw [if_neg hi] at h
      exact ih _ _ h hk

theorem groupsLoop_complete (found : List GoString) (names : List GoString) (i : Nat)
    (hi : i ≠ 0) (res res2 : GoMap) (h : groupsLoop found i names res = some res2) :
    ∀ name ∈ names, (mapGet res2 name).isSome = true := by
  induction names generalizing i res with
  | nil => intro name hn; simp at hn
  | cons nm rest ih =>
    unfold groupsLoop at h
    rw [if_pos hi] at h
    cases hg : goIndex found (i : Int) with
    | none => rw [hg] at h; exact Option.noConfusion h
    | some v =>
      rw [hg] at h
      intro name hn
      rcases List.mem_cons.mp hn with e | e
      · subst e
        exact groupsLoop_keeps _ _ _ _ _ _ h (by rw [mapGet_mapSet_self]; rfl)
      · exact ih (i + 1) (Nat.succ_ne_zero i) _ h name e

theorem groupsFromRegex_of_compile_error (regexp : RegexpPackage) (rx line err : GoString)
    (h : regexp.Compile (fullRegexp rx) = .error err) :
    groupsFromRegex regexp rx line = .mustCompilePanic err := by
  unfold groupsFromRegex
  rw [h]

theorem groupsFromRegex_of_no_match (regexp : RegexpPackage) (rx line : GoString)
    (re : regexp.Regexp) (h : regexp.Compile (fullRegexp rx) = .ok re)
    (hf : regexp.FindStringSubmatch re line = []) :
    groupsFromRegex regexp rx line =
      .panic (str "could not match regexp '" ++ fullRegexp rx ++
        str "' with string '" ++ line ++ str "'") := by
  unfold groupsFromRegex
  rw [h]
  simp only [hf, List.length_nil, if_true]

theorem groupsFromRegex_of_match (regexp : RegexpPackage) (rx line : GoString)
    (re : regexp.Regexp) (h : regexp.Compile (fullRegexp rx) = .ok re)
    (hf : regexp.FindStringSubmatch re line ≠ []) :
    groupsFromRegex regexp rx line =
      match groupsLoop (regexp.FindStringSubmatch re line) 0 (regexp.SubexpNames re) [] with
      | none => .outOfRange
      | some result => .ok result := by
  unfold groupsFromRegex
  rw [h]
  have : ¬ (regexp.FindStringSubmatch re line).length = 0 := fun e =>
    hf (List.length_eq_zero.mp e)
  simp only [this, if_false]

theorem goIndex_natCast {α : Type} (xs : List α) (i : Nat) :
    goIndex xs ((i : Nat) : Int) = xs[i]? := by
  unfold goIndex
  rw [if_pos (Int.natCast_nonneg i), Int.toNat_ofNat]

/-- What the loop of `groupsFromRegex` stores under a name: the submatch of
the last subexpression that bears it. -/
theorem groupsLoop_last (found : List GoString) (names : List GoString) (name : GoString)
    (hmem : name ∈ names) (i : Nat) (hi : i ≠ 0) (res res2 : GoMap)
    (h : groupsLoop found i names res = some res2) :
    ∃ (k : Nat) (v : GoString),
      names[k]? = some name ∧ (∀ l : Nat, k < l → names[l]? ≠ some name) ∧
        found[i + k]? = some v ∧ mapGet res2 name = some v := by
  induction names generalizing i res with
  | nil => simp at hmem
  | cons nm rest ih =>
    unfold groupsLoop at h
    rw [if_pos hi] at h
    cases hg : goIndex found (i : Int) with
    | none => rw [hg] at h; exact Option.noConfusion h
    | some v0 =>
      rw [hg] at h
      by_cases hr : name ∈ rest
      · obtain ⟨k, v, h1, h2, h3, h4⟩ := ih hr (i + 1) (Nat.succ_ne_zero i) _ h
        refine ⟨k + 1, v, by simpa using h1, ?_, ?_, h4⟩
        · intro l hl
          obtain ⟨m, rfl⟩ : ∃ m, l = m + 1 := ⟨l - 1, by omega⟩
          rw [List.getElem?_cons_succ]
          exact h2 m (by omega)
        · have e : i + (k + 1) = i + 1 + k := by omega
          rw [e]; exact h3
      · have hnm : name = nm := by
          rcases List.mem_cons.mp hmem with e | e
          · exact e
          · exact absurd e hr
        subst hnm
        refine ⟨0, v0, List.getElem?_cons_zero, ?_, ?_, ?_⟩
        · intro l hl
          obtain ⟨m, rfl⟩ : ∃ m, l = m + 1 := ⟨l - 1, by omega⟩
          rw [List.getElem?_cons_succ]
          intro e
          exact hr (List.mem_iff_getElem?.mpr ⟨m, e⟩)
        · rw [Nat.add_zero, ← goIndex_natCast]; exact hg
        · rw [groupsLoop_get_of_not_mem _ _ _ hr _ _ _ h]
          exact mapGet_mapSet_self _ _ _

/-! ## Claims about `importType` and `groupsFromRegex` -/

/-- C11, as stated, fails: for the qualified name `os.File` the text
`importType` returns is `os.File`, not the tail `File` after the last `.`: it
still contains the qualifier. -/
theorem importType_tail_counterexample :
    '.' ∈ str "os.File" ∧
      (NewAst.importType (str "os.File")).map Prod.fst = some (str "os.File") ∧
      str "os.File" ≠ str "File" ∧
      '.' ∈ str "os.File" ∧
      (NewAst.importType (str "os.File")).map (fun x => x.2.Imports) =
        some [str "fmt", str "os"] := by
  decide

/-- C11, amended: for a name containing `.`, with namespace segment `p` and
unqualified tail `t` (`name = p ++ "." ++ t`, no `.` in `t`), `importType`
registers `p` and returns the text of the name after its last `/` (the whole
name without `/`).  When the tail has no `/` this is the last path element of
`p`, a `.` and the tail, so the qualifier is kept; when the tail has a `/` it is
the text of the tail after its last `/`. -/
theorem importType_returns (a : Ast) (name : GoString) (h : '.' ∈ name) :
    ∃ p t r,
      name = p ++ '.' :: t ∧ '.' ∉ t ∧
        a.importType name = some (r, a.addImport p) ∧
        r = afterLast '/' name ∧
        ('/' ∉ t → r = afterLast '/' p ++ '.' :: t) ∧
        ('/' ∈ t → r = afterLast '/' t) := by
  obtain ⟨t, ht, hnt⟩ := Split_dropLast h
  refine ⟨Join (Split name '.').dropLast (str "."), t, afterLast '/' name, ht, hnt,
    importType_eq a h, rfl, ?_, ?_⟩
  · intro hs
    have hs2 : '/' ∉ '.' :: t := by
      simp only [List.mem_cons, not_or]
      exact ⟨by decide, hs⟩
    conv_lhs => rw [ht]
    exact afterLast_append_of_not_mem _ _ hs2
  · intro hs
    conv_lhs => rw [ht]
    have e : Join (Split name '.').dropLast [('.' : Char)] ++ '.' :: t =
        (Join (Split name '.').dropLast [('.' : Char)] ++ ['.']) ++ t := by simp
    rw [e]
    exact afterLast_append_of_mem _ _ hs

theorem importType_returns_witness :
    '.' ∈ str "github.com/a/b.T" ∧
      ∃ p t r,
        str "github.com/a/b.T" = p ++ '.' :: t ∧ '.' ∉ t ∧
          NewAst.importType (str "github.com/a/b.T") = some (r, NewAst.addImport p) ∧
          r = afterLast '/' (str "github.com/a/b.T") ∧
          ('/' ∉ t → r = afterLast '/' p ++ '.' :: t) ∧
          ('/' ∈ t → r = afterLast '/' t) :=
  ⟨by decide, importType_returns NewAst (str "github.com/a/b.T") (by decide)⟩

/-- C12, as stated, fails: the composed pattern for `rx = "("` does not
compile, so `groupsFromRegex` fails in `regexp.MustCompile`, before any
matching; the failure is the same for two different lines, so it does not
report the offending line. -/
theorem groupsFromRegex_report_counterexample :
    groupsFromRegex fragmentRegexp (str "(") (str "IfStmt 0x1") =
        .mustCompilePanic (str "missing closing )") ∧
      groupsFromRegex fragmentRegexp (str "(") (str "WhileStmt 0x2") =
        .mustCompilePanic (str "missing closing )") ∧
      str "IfStmt 0x1" ≠ str "WhileStmt 0x2" := by
  decide

/-- C12, amended: when the composed pattern (address prefix, then `rx` without
newlines and tabs) compiles, `groupsFromRegex` fails if and only if the pattern
has no match in the line; it then returns no result, and its panic quotes the
whole composed pattern and the whole line, the kind being reported only as part
of that line; a result that is returned has an entry for every subexpression
name.  When the composed pattern does not compile, `regexp.MustCompile`
panics, whatever the line. -/
theorem groupsFromRegex_failure (regexp : RegexpPackage) (rx line : GoString) :
    (∀ re, regexp.Compile (fullRegexp rx) = .ok re →
      (regexp.FindStringSubmatch re line = [] ∨
        (regexp.FindStringSubmatch re line).length = (regexp.SubexpNames re).length) →
      ((∀ result, groupsFromRegex regexp rx line ≠ .ok result) ↔
          regexp.FindStringSubmatch re line = []) ∧
        (regexp.FindStringSubmatch re line = [] →
          groupsFromRegex regexp rx line =
            .panic (str "could not match regexp '" ++
              (str "(?P<address>[0-9a-fx]+) " ++ withoutLayout rx) ++
              str "' with string '" ++ line ++ str "'")) ∧
        (∀ result, groupsFromRegex regexp rx line = .ok result →
          ∀ name ∈ (regexp.SubexpNames re).tail, (mapGet result name).isSome = true)) ∧
      (∀ err, regexp.Compile (fullRegexp rx) = .error err →
        ∀ line2, groupsFromRegex regexp rx line2 = .mustCompilePanic err) := by
  refine ⟨fun re hc hlen => ⟨⟨?_, ?_⟩, ?_, ?_⟩, fun err hc line2 =>
    groupsFromRegex_of_compile_error regexp rx line2 err hc⟩
  · intro hfail
    by_contra hf
    have hl : (regexp.FindStringSubmatch re line).length = (regexp.SubexpNames re).length :=
      hlen.resolve_left hf
    obtain ⟨res2, h2⟩ := groupsLoop_isSome (regexp.FindStringSubmatch re line)
      (regexp.SubexpNames re) 0 [] (by omega)
    have := groupsFromRegex_of_match regexp rx line re hc hf
    rw [h2] at this
    exact hfail res2 this
  · intro hf result
    rw [groupsFromRegex_of_no_match regexp rx line re hc hf]
    exact fun e => GroupsResult.noConfusion e
  · intro hf
    rw [groupsFromRegex_of_no_match regexp rx line re hc hf, fullRegexp_eq]
  · intro result hok name hname
    by_cases hf : regexp.FindStringSubmatch re line = []
    · rw [groupsFromRegex_of_no_match regexp rx line re hc hf] at hok
      exact GroupsResult.noConfusion hok
    · rw [groupsFromRegex_of_match regexp rx line re hc hf] at hok
      cases hn : regexp.SubexpNames re with
      | nil => rw [hn] at hname; simp at hname
      | cons n0 rest =>
        rw [hn] at hname hok
        cases hg : groupsLoop (regexp.FindStringSubmatch re line) 0 (n0 :: rest) [] with
        | none => rw [hg] at hok; exact GroupsResult.noConfusion hok
        | some res2 =>
          rw [hg] at hok
          have e : res2 = result := GroupsResult.ok.inj hok
          subst e
          have hg2 : groupsLoop (regexp.FindStringSubmatch re line) 1 rest [] = some res2 := by
            unfold groupsLoop at hg
            simpa using hg
          exact groupsLoop_complete _ _ 1 (by decide) _ _ hg2 name hname

theorem groupsFromRegex_failure_witness :
    (fragmentRegexp.Compile (fullRegexp (str "<(?P<p>.*)>")) = .ok examplePattern ∧
      groupsFromRegex fragmentRegexp (str "<(?P<p>.*)>") (str "K 0x1f <q") =
        .panic (str "could not match regexp '" ++
          (str "(?P<address>[0-9a-fx]+) " ++ withoutLayout (str "<(?P<p>.*)>")) ++
          str "' with string '" ++ str "K 0x1f <q" ++ str "'")) ∧
      (fragmentRegexp.Compile (fullRegexp (str "(")) = .error (str "missing closing )") ∧
        groupsFromRegex fragmentRegexp (str "(") (str "K 0x1f <q") =
          .mustCompilePanic (str "missing closing )")) :=
  ⟨⟨rfl,
    ((groupsFromRegex_failure fragmentRegexp (str "<(?P<p>.*)>") (str "K 0x1f <q")).1
      examplePattern rfl (Or.inl rfl)).2.1 rfl⟩,
    ⟨rfl,
      (groupsFromRegex_failure fragmentRegexp (str "(") (str "K 0x1f <q")).2
        (str "missing closing )") rfl (str "K 0x1f <q")⟩⟩

/-- C13, as stated, fails: with `rx = "(?P<address>z)"` the result's entry
`address` on the line `0 z` is `z`, the text of the group of `rx`, which is not
an address character; with `rx = "|b"` the composed pattern is an alternation,
its match on the line `b` does not go through the address group, and the entry
`address` is empty. -/
theorem groupsFromRegex_address_counterexample :
    groupsFromRegex fragmentRegexp (str "(?P<address>z)") (str "0 z") =
        .ok [(str "address", str "z")] ∧
      isAddressChar 'z' = false ∧
      groupsFromRegex fragmentRegexp (str "|b") (str "b") = .ok [(str "address", [])] := by
  decide

/-- C13, amended: for every pattern `rx` and line on which `groupsFromRegex`
succeeds, the first subexpression of the composed pattern being the prefix
group named `address`, the result has an entry `address`, and its value is the
submatch of the last subexpression named `address`: the first submatch, the text
of the prefix group, when `rx` itself names no subexpression `address`. -/
theorem groupsFromRegex_address (regexp : RegexpPackage) (rx line : GoString)
    (re : regexp.Regexp) (result : GoMap)
    (hc : regexp.Compile (fullRegexp rx) = .ok re)
    (hfirst : (regexp.SubexpNames re)[1]? = some (str "address"))
    (hok : groupsFromRegex regexp rx line = .ok result) :
    ∃ (i : Nat) (addr : GoString),
      1 ≤ i ∧ (regexp.SubexpNames re)[i]? = some (str "address") ∧
        (∀ j : Nat, i < j → (regexp.SubexpNames re)[j]? ≠ some (str "address")) ∧
        (regexp.FindStringSubmatch re line)[i]? = some addr ∧
        mapGet result (str "address") = some addr ∧
        ((∀ j : Nat, 2 ≤ j → (regexp.SubexpNames re)[j]? ≠ some (str "address")) →
          i = 1) := by
  by_cases hf : regexp.FindStringSubmatch re line = []
  · rw [groupsFromRegex_of_no_match regexp rx line re hc hf] at hok
    exact GroupsResult.noConfusion hok
  · rw [groupsFromRegex_of_match regexp rx line re hc hf] at hok
    cases hn : regexp.SubexpNames re with
    | nil => rw [hn] at hfirst; simp at hfirst
    | cons n0 rest =>
      rw [hn] at hfirst hok
      rw [List.getElem?_cons_succ] at hfirst
      cases hg : groupsLoop (regexp.FindStringSubmatch re line) 0 (n0 :: rest) [] with
      | none => rw [hg] at hok; exact GroupsResult.noConfusion hok
      | some res2 =>
        rw [hg] at hok
        have e : res2 = result := GroupsResult.ok.inj hok
        subst e
        have hg2 : groupsLoop (regexp.FindStringSubmatch re line) 1 rest [] = some res2 := by
          unfold groupsLoop at hg
          simpa using hg
        obtain ⟨k, v, h1, h2, h3, h4⟩ := groupsLoop_last _ rest (str "address")
          (List.mem_iff_getElem?.mpr ⟨0, hfirst⟩) 1 (by decide) _ _ hg2
        refine ⟨k + 1, v, by omega, by simpa using h1, ?_, ?_, h4, ?_⟩
        · intro j hj
          obtain ⟨m, rfl⟩ : ∃ m, j = m + 1 := ⟨j - 1, by omega⟩
          rw [List.getElem?_cons_succ]
          exact h2 m (by omega)
        · have e : k + 1 = 1 + k := by omega
          rw [e]; exact h3
        · intro hlast
          by_contra hk
          have hk1 : 2 ≤ k + 1 := by omega
          have := hlast (k + 1) hk1
          rw [List.getElem?_cons_succ] at this
          exact this h1

theorem groupsFromRegex_address_witness :
    (fragmentRegexp.Compile (fullRegexp (str "<(?P<p>.*)>")) = .ok examplePattern ∧
      (fragmentRegexp.SubexpNames examplePattern)[1]? = some (str "address") ∧
      groupsFromRegex fragmentRegexp (str "<(?P<p>.*)>") (str "K 0x1f <q>") =
        .ok [(str "address", str "0x1f"), (str "p", str "q")]) ∧
      ∃ (i : Nat) (addr : GoString),
        1 ≤ i ∧ (fragmentRegexp.SubexpNames examplePattern)[i]? = some (str "address") ∧
          (∀ j : Nat, i < j →
            (fragmentRegexp.SubexpNames examplePattern)[j]? ≠ some (str "address")) ∧
          (fragmentRegexp.FindStringSubmatch examplePattern (str "K 0x1f <q>"))[i]? =
            some addr ∧
          mapGet [(str "address", str "0x1f"), (str "p", str "q")] (str "address") =
            some addr ∧
          ((∀ j : Nat, 2 ≤ j →
              (fragmentRegexp.SubexpNames examplePattern)[j]? ≠ some (str "address")) →
            i = 1) :=
  ⟨⟨rfl, rfl, rfl⟩,
    groupsFromRegex_address fragmentRegexp (str "<(?P<p>.*)>") (str "K 0x1f <q>")
      examplePattern _ rfl rfl rfl⟩

/-- C14: newlines and tabs in the pattern argument are cosmetic:
`groupsFromRegex` has the same outcome, result or failure, for `rx` and for `rx`
with every newline and tab removed.  The two `strings.Replace` calls compute
that text; removing is idempotent, and it keeps every other character, spaces
included, in place and in order. -/
theorem groupsFromRegex_layout (regexp : RegexpPackage) (rx line : GoString) :
    groupsFromRegex regexp rx line = groupsFromRegex regexp (withoutLayout rx) line ∧
      Replace (Replace rx '\n' [] (-1)) '\t' [] (-1) = withoutLayout rx ∧
      withoutLayout (withoutLayout rx) = withoutLayout rx ∧
      withoutLayout rx = rx.filter (fun c => c != '\n' && c != '\t') ∧
      '\n' ∉ withoutLayout rx ∧ '\t' ∉ withoutLayout rx ∧
      withoutLayout (str "a (b)\n\t c") = str "a (b) c" := by
  have hfull : fullRegexp (withoutLayout rx) = fullRegexp rx := by
    rw [fullRegexp_eq, fullRegexp_eq, withoutLayout_idem]
  refine ⟨?_, ?_, withoutLayout_idem rx, ?_, ?_, ?_, by decide⟩
  · unfold groupsFromRegex
    rw [hfull]
  · have := fullRegexp_eq rx
    unfold fullRegexp at this
    exact List.append_cancel_left this
  · rfl
  · unfold withoutLayout
    simp
  · unfold withoutLayout
    simp

/-! ## Claims about `NewAst`, the frame of the calls, and indexing -/

/-- C15: the context `NewAst` creates is outside any function: the function
name and the return type are empty, the indentation depth is 0 and the import
list is exactly `["fmt"]`. -/
theorem NewAst_fresh :
    NewAst.functionName = [] ∧ NewAst.returnType = [] ∧ NewAst.indent = 0 ∧
      NewAst.Imports = [str "fmt"] :=
  ⟨rfl, rfl, rfl, rfl⟩

/-- C16: for every name containing `.`, `importType` returns the part of the
name after its last `/`, and the whole name when it has no `/`; the result is a
suffix of the name without `/`.  `os.File` gives `os.File` and
`github.com/a/b.T` gives `b.T`. -/
theorem importType_after_slash (a : Ast) (name : GoString) (h : '.' ∈ name) :
    ∃ r a1,
      a.importType name = some (r, a1) ∧
        ('/' ∉ name → r = name) ∧
        ('/' ∈ name → ∃ q, name = q ++ '/' :: r) ∧
        r <:+ name ∧ '/' ∉ r ∧
        (a.importType (str "os.File")).map Prod.fst = some (str "os.File") ∧
        (a.importType (str "github.com/a/b.T")).map Prod.fst = some (str "b.T") := by
  refine ⟨_, _, importType_eq a h, afterLast_of_not_mem, afterLast_cases,
    afterLast_suffix _ _, afterLast_not_mem _ _, ?_, ?_⟩
  · rw [importType_eq a (by decide), Option.map_some']
    exact congrArg some (show afterLast '/' (str "os.File") = str "os.File" by decide)
  · rw [importType_eq a (by decide), Option.map_some']
    exact congrArg some (show afterLast '/' (str "github.com/a/b.T") = str "b.T" by decide)

theorem importType_after_slash_witness :
    '.' ∈ str "github.com/a/b.T" ∧
      ∃ r a1,
        NewAst.importType (str "github.com/a/b.T") = some (r, a1) ∧
          ('/' ∉ str "github.com/a/b.T" → r = str "github.com/a/b.T") ∧
          ('/' ∈ str "github.com/a/b.T" → ∃ q, str "github.com/a/b.T" = q ++ '/' :: r) ∧
          r <:+ str "github.com/a/b.T" ∧ '/' ∉ r ∧
          (NewAst.importType (str "os.File")).map Prod.fst = some (str "os.File") ∧
          (NewAst.importType (str "github.com/a/b.T")).map Prod.fst = some (str "b.T") :=
  ⟨by decide, importType_after_slash NewAst (str "github.com/a/b.T") (by decide)⟩

/-- C17: for every name without `.` (the empty name and names with `/`
included), `importType` returns the name unchanged and leaves the context,
the import list and every other field, as it was. -/
theorem importType_unqualified (a : Ast) (name : GoString) (h : '.' ∉ name) :
    a.importType name = some (name, a) ∧
      a.importType [] = some ([], a) :=
  ⟨importType_of_not_mem a h, importType_of_not_mem a (by simp)⟩

theorem importType_unqualified_witness :
    '.' ∉ str "a/b" ∧
      NewAst.importType (str "a/b") = some (str "a/b", NewAst) ∧
      NewAst.importType [] = some ([], NewAst) :=
  ⟨by decide, importType_unqualified NewAst (str "a/b") (by decide)⟩

/-- C18: `addImport` and `importType` change nothing of the context but
the import list, to which they append at most one identifier at the end:
`functionName`, `indent` and `returnType` are unchanged, the old import list is
a prefix of the new one, and the new one is longer by at most one element.  So
`fmt` stays the first import of every context reached from `NewAst`. -/
theorem calls_only_append (a : Ast) (name : GoString) :
    ((a.addImport name).functionName = a.functionName ∧
        (a.addImport name).indent = a.indent ∧
        (a.addImport name).returnType = a.returnType ∧
        a.Imports <+: (a.addImport name).Imports ∧
        (a.addImport name).Imports.length ≤ a.Imports.length + 1) ∧
      (∃ r a1,
        a.importType name = some (r, a1) ∧
          a1.functionName = a.functionName ∧
          a1.indent = a.indent ∧
          a1.returnType = a.returnType ∧
          a.Imports <+: a1.Imports ∧
          a1.Imports.length ≤ a.Imports.length + 1) ∧
      ∀ cs, ∃ a2, NewAst.calls cs = some a2 ∧ a2.Imports.head? = some (str "fmt") := by
  have hadd : ∀ n : GoString,
      (a.addImport n).functionName = a.functionName ∧
        (a.addImport n).indent = a.indent ∧
        (a.addImport n).returnType = a.returnType ∧
        a.Imports <+: (a.addImport n).Imports ∧
        (a.addImport n).Imports.length ≤ a.Imports.length + 1 := fun n =>
    ⟨(addImport_frame a n).1, (addImport_frame a n).2.1, (addImport_frame a n).2.2,
      prefix_addImport a n, length_addImport_le a n⟩
  refine ⟨hadd name, ?_, ?_⟩
  · by_cases h : '.' ∈ name
    · exact ⟨_, _, importType_eq a h, hadd _⟩
    · exact ⟨_, _, importType_of_not_mem a h, rfl, rfl, rfl, List.prefix_refl _,
        Nat.le_succ _⟩
  · intro cs
    obtain ⟨a2, h1, _, s, hs⟩ := calls_nodup cs NewAst NewAst_nodup
    refine ⟨a2, h1, ?_⟩
    show a2.imports.head? = some (str "fmt")
    rw [← hs]
    rfl

/-- C19: the index and slice expressions of `Parse` and `importType` are always
in bounds: for every string, element 0 of the split in `Parse`, the slice
`parts[:len(parts)-1]` and the last element of either split in `importType`
exist, so `Parse` and `importType` never stop on an index out of range.  A split
has at least one piece, and at least two when the separator occurs. -/
theorem indexing_in_bounds {R : Type} (rules : Rules R) (a : Ast)
    (line name : GoString) (sep : Char) :
    goIndex (SplitN line ' ' 2) 0 = some (leadingKeyword line) ∧
      Parse rules line ≠ .outOfRange ∧
      goSliceTo (Split name '.') (((Split name '.').length : Int) - 1) =
        some (Split name '.').dropLast ∧
      goIndex (Split name '/') (((Split name '/').length : Int) - 1) =
        some (afterLast '/' name) ∧
      goIndex (Split name '.') (((Split name '.').length : Int) - 1) =
        some (afterLast '.' name) ∧
      (∃ r a1, a.importType name = some (r, a1)) ∧
      1 ≤ (SplitN line ' ' 2).length ∧
      1 ≤ (Split name sep).length ∧
      (sep ∈ name → 2 ≤ (Split name sep).length) := by
  refine ⟨nodeName_eq line, ?_, goSliceTo_length_sub_one _ (Split_ne_nil _ _), ?_, ?_,
    importType_isSome a name, ?_, List.length_pos.mpr (Split_ne_nil _ _), ?_⟩
  · rw [Parse_eq_parseByTable]
    unfold parseByTable
    cases lookupRule (grammarTable rules) (leadingKeyword line) with
    | some f => exact fun e => ParseResult.noConfusion e
    | none =>
      show (if leadingKeyword line = str "NullStmt" then ParseResult.nil
        else ParseResult.panic (unknownNodeType line)) ≠ ParseResult.outOfRange
      by_cases hk : leadingKeyword line = str "NullStmt"
      · rw [if_pos hk]; exact fun e => ParseResult.noConfusion e
      · rw [if_neg hk]; exact fun e => ParseResult.noConfusion e
  · rw [goIndex_length_sub_one _ (Split_ne_nil _ _), Split_getLast]
  · rw [goIndex_length_sub_one _ (Split_ne_nil _ _), Split_getLast]
  · have h := nodeName_eq line
    by_contra hlen
    have h0 : SplitN line ' ' 2 = [] := List.length_eq_zero.mp (by omega)
    rw [h0] at h
    simp [goIndex] at h
  · intro h
    rw [Split_eq_loop]
    have hc : 0 < Count name sep := List.count_pos_iff.mpr h
    obtain ⟨k, hk⟩ := Nat.exists_eq_succ_of_ne_zero (Nat.pos_iff_ne_zero.mp hc)
    rw [hk]
    exact length_genSplitLoop_of_mem h

theorem indexing_in_bounds_witness :
    '.' ∈ str ".a." ∧ 2 ≤ (Split (str ".a.") '.').length ∧
      Parse tagRules [] ≠ .outOfRange ∧
      ∃ r a1, NewAst.importType (str ".a.") = some (r, a1) :=
  ⟨by decide,
    (indexing_in_bounds tagRules NewAst [] (str ".a.") '.').2.2.2.2.2.2.2.2 (by decide),
    (indexing_in_bounds tagRules NewAst [] (str ".a.") '.').2.1,
    (indexing_in_bounds tagRules NewAst [] (str ".a.") '.').2.2.2.2.2.1⟩

end C2go
